import Mathlib

/-!
Verification of the obuolys repository's deferred image-loading subsystem
and of two admin-editor functions (`generateSlug`, `onSubmit`).

Strings are modelled as `List Char`.  The lazy-image utilities
(`extractImagesFromHTML`, `addLazyLoadingToImages`, `useLazyImages`,
`preloadImagesWhenIdle`) are imported by the repository's pages but their
defining modules are not part of the provided sources, so they are modelled
from the specification; the admin editor's `generateSlug` and `onSubmit`
are embedded directly from `src/components/admin/NewsEditor.tsx`.
-/

/-- The double-quote character. -/
def dq : Char := Char.ofNat 34

/-- The single-quote character. -/
def sqc : Char := Char.ofNat 39

/-- HTML whitespace as used by the markup scanners. -/
def isWs (c : Char) : Bool :=
  c = ' ' || c = Char.ofNat 9 || c = Char.ofNat 10 || c = Char.ofNat 13

/-- A character that may appear in an attribute name. -/
def attrNameChar (c : Char) : Bool :=
  !(isWs c || c = '=' || c = '/' || c = '>' || c = dq || c = sqc)

/-- Characters skipped between attributes inside a tag. -/
def skipChar (c : Char) : Bool :=
  isWs c || c = '/' || c = dq || c = sqc

/-- A character allowed inside an unquoted attribute value. -/
def unquotedValChar (c : Char) : Bool :=
  !(isWs c || c = '>' || c = dq || c = sqc)

/-- A character allowed inside a quoted attribute value. -/
def quotedValChar (c : Char) : Bool :=
  !(c = dq || c = sqc)

/-- Modelled from the spec: attribute-value parsing of the Image Reference
Extractor (the module `utils/imagePreloader` is not among the provided
sources).  Reads one attribute value (quoted in either style, or unquoted)
and returns it together with the unconsumed remainder. -/
def parseVal : List Char → List Char × List Char
  | [] => ([], [])
  | d :: r =>
    if d = dq || d = sqc then
      let v := r.takeWhile quotedValChar
      (v, (r.drop v.length).drop 1)
    else
      let v := (d :: r).takeWhile unquotedValChar
      (v, (d :: r).drop v.length)

/-- Modelled from the spec: best-effort scan of a tag body for a named
attribute, tolerating arbitrary attribute order and quoting style.  Fuel
makes the scan total on malformed input. -/
def findAttr : Nat → List Char → List Char → Option (List Char)
  | 0, _, _ => none
  | _ + 1, _, [] => none
  | fuel + 1, name, c :: cs =>
    if skipChar c then findAttr fuel name cs
    else
      match (c :: cs).drop ((c :: cs).takeWhile attrNameChar).length with
      | '=' :: r2 =>
        if (c :: cs).takeWhile attrNameChar = name then some (parseVal r2).1
        else findAttr fuel name (parseVal r2).2
      | [] =>
        if (c :: cs).takeWhile attrNameChar = name then some [] else none
      | _ :: r2 =>
        if (c :: cs).takeWhile attrNameChar = name then some []
        else findAttr fuel name r2

/-- Look up an attribute value within a tag body. -/
def attrValOf (name ct : List Char) : Option (List Char) :=
  findAttr (ct.length + 1) name ct

/-- The name of the source attribute. -/
def srcName : List Char := "src".toList

/-- True when the list starts with a tag-name delimiter (or is empty). -/
def headDelim : List Char → Bool
  | [] => true
  | c :: _ => isWs c || c = '/' || c = '>'

/-- The literal `<img`. -/
def imgLit : List Char := ['<', 'i', 'm', 'g']

/-- Recognises the start of an image tag: a literal `<img` followed by a
delimiter (whitespace, `/`, `>`, or end of input). -/
def isImgOpen (l : List Char) : Bool :=
  imgLit.isPrefixOf l && headDelim (l.drop 4)

/-- The body of the image tag opened at `'<' :: cs`: everything after the
tag name up to (excluding) the closing `>`, or to the end when unclosed. -/
def tagContent (cs : List Char) : List Char :=
  (cs.drop 3).takeWhile (fun d => !(d = '>'))

/-- Whether the image tag opened at `'<' :: cs` has a closing `>`. -/
def tagClosed (cs : List Char) : Bool :=
  (tagContent cs).length < (cs.drop 3).length

/-- The input remaining after the image tag opened at `'<' :: cs`. -/
def tagRest (cs : List Char) : List Char :=
  (cs.drop 3).drop ((tagContent cs).length + 1)

/-- Modelled from the spec: the tag scanner shared by the Image Reference
Extractor and the Lazy Markup Rewriter.  Returns the bodies (text up to the
closing `>`) of all image tags, recovering from malformed or unclosed
markup. -/
def imgScan : Nat → List Char → List (List Char)
  | 0, _ => []
  | _ + 1, [] => []
  | fuel + 1, c :: cs =>
    if isImgOpen (c :: cs) then tagContent cs :: imgScan fuel (tagRest cs)
    else imgScan fuel cs

/-- The bodies of all image tags of an HTML string. -/
def imgContents (html : List Char) : List (List Char) :=
  imgScan (html.length + 1) html

/-- An extracted image reference: a URL plus its first-occurrence ordinal. -/
structure ImageReference where
  url : List Char
  ordinal : Nat
deriving DecidableEq, Repr

/-- The image-source URLs of an HTML string in document order, duplicates
kept, image tags with an absent or empty `src` silently skipped. -/
def validSrcs (html : List Char) : List (List Char) :=
  ((imgContents html).filterMap (fun ct => attrValOf srcName ct)).filter
    (fun u => !u.isEmpty)

/-- First index of an element in a list (length of the list if absent). -/
def firstIdx : List (List Char) → List Char → Nat
  | [], _ => 0
  | v :: vs, u => if v = u then 0 else 1 + firstIdx vs u

/-- Modelled from the spec: the deduplication pass of the Image Reference
Extractor.  Keeps the first occurrence of each URL, assigning as ordinal the
index of that first occurrence. -/
def dedupAux : List (List Char) → Nat → List (List Char) → List ImageReference
  | [], _, _ => []
  | u :: us, i, seen =>
    if u ∈ seen then dedupAux us (i + 1) seen
    else { url := u, ordinal := i } :: dedupAux us (i + 1) (u :: seen)

/-- Modelled from the spec: `extractImagesFromHTML` of
`utils/imagePreloader` (module not among the provided sources).  Parses the
markup, collects image URLs in document order, skips empty sources, and
deduplicates keeping first occurrences. -/
def extractImagesFromHTML (html : List Char) : List ImageReference :=
  dedupAux (validSrcs html) 0 []

/-- Whether `pat` occurs as a contiguous substring of `l`. -/
def hasInfix : List Char → List Char → Bool
  | [], pat => pat.isEmpty
  | c :: cs, pat => pat.isPrefixOf (c :: cs) || hasInfix cs pat

/-- The neutral, non-network placeholder source (an inline transparent
pixel). -/
def placeholderSrc : List Char :=
  "data:image/gif;base64,R0lGODlhAQABAAAAACw=".toList

/-- The deferred-source attribute, which doubles as the discovery marker of
already-rewritten markup. -/
def markerName : List Char := "data-src".toList

/-- Literal prefix of a rewritten tag body: the marker class. -/
def lazyPre : List Char :=
  ' ' :: "class=".toList ++ dq :: "lazy-image".toList ++ [dq, ' ']

/-- Literal suffix of a rewritten tag body: the placeholder source. -/
def lazySuf : List Char :=
  ' ' :: "src=".toList ++ dq :: placeholderSrc ++ [dq]

/-- Body of a rewritten image tag: marker class, deferred source holding the
original URL, and placeholder source. -/
def lazyInner (u : List Char) : List Char :=
  lazyPre ++ markerName ++ '=' :: dq :: (u ++ dq :: lazySuf)

/-- A full rewritten image tag. -/
def mkLazyTag (u : List Char) : List Char :=
  '<' :: 'i' :: 'm' :: 'g' :: lazyInner u ++ ['>']

/-- The source URL of a tag body, or the empty URL when absent. -/
def srcOrEmpty (ct : List Char) : List Char := (attrValOf srcName ct).getD []

/-- Modelled from the spec: the core loop of `addLazyLoadingToImages` of
`utils/lazyLoadImages` (module not among the provided sources).  Walks the
markup; image tags already carrying the deferred-source marker are copied
verbatim, all others are replaced by a placeholder tag that moves the
original URL into the deferred-source attribute. -/
def rewriteAux : Nat → List Char → List Char
  | 0, l => l
  | _ + 1, [] => []
  | fuel + 1, c :: cs =>
    if isImgOpen (c :: cs) then
      if hasInfix (tagContent cs) markerName then
        '<' :: 'i' :: 'm' :: 'g' :: tagContent cs ++
          (if tagClosed cs then '>' :: rewriteAux fuel (tagRest cs)
           else rewriteAux fuel (tagRest cs))
      else mkLazyTag (srcOrEmpty (tagContent cs)) ++ rewriteAux fuel (tagRest cs)
    else c :: rewriteAux fuel cs

/-- Modelled from the spec: `addLazyLoadingToImages`, the Lazy Markup
Rewriter. -/
def addLazyLoadingToImages (html : List Char) : List Char :=
  rewriteAux (html.length + 1) html

/-- Load state of a tracked image element. -/
inductive LoadState where
  | Pending
  | Preloading
  | Loaded
  | Failed
deriving DecidableEq, Repr

/-- Modelled from the spec: a tracked element of the Proximity Loader
(`hooks/useLazyImages` is not among the provided sources): its load state,
promotion-attempt count, observation flag, and source attributes. -/
structure TrackedElem where
  state : LoadState
  attempts : Nat
  observed : Bool
  src : Option (List Char)
  dataSrc : Option (List Char)
deriving DecidableEq, Repr

/-- Asynchronous events delivered to a tracked element. -/
inductive ImgEvent where
  | proximity
  | loadOk
  | loadErr
deriving DecidableEq, Repr

/-- Modelled from the spec: one transition of the Proximity Loader's
state machine.  Returns the new element, whether a network request was
issued, and whether a `Pending → Preloading` promotion happened.  A
proximity signal promotes only a `Pending` element (copying the deferred
source into the live source and stopping observation); a load error while
`Preloading` retries the same promotion exactly once, a second failure is
terminally `Failed`. -/
def stepElem (e : TrackedElem) (ev : ImgEvent) : TrackedElem × Bool × Bool :=
  match ev with
  | .proximity =>
    match e.state with
    | .Pending =>
      ({ e with state := .Preloading, observed := false,
                attempts := e.attempts + 1, src := e.dataSrc }, true, true)
    | _ => (e, false, false)
  | .loadOk =>
    match e.state with
    | .Preloading => ({ e with state := .Loaded }, false, false)
    | _ => (e, false, false)
  | .loadErr =>
    match e.state with
    | .Preloading =>
      if e.attempts ≤ 1 then
        ({ e with attempts := e.attempts + 1, src := e.dataSrc }, true, false)
      else ({ e with state := .Failed }, false, false)
    | _ => (e, false, false)

/-- A freshly registered element: `Pending`, observed, placeholder source,
deferred source holding the real URL. -/
def freshElem (u : List Char) : TrackedElem :=
  { state := .Pending, attempts := 0, observed := true,
    src := some placeholderSrc, dataSrc := some u }

/-- The terminal state of an element whose promotion and single retry both
failed. -/
def failedElem (u : List Char) : TrackedElem :=
  { state := .Failed, attempts := 2, observed := false,
    src := some u, dataSrc := some u }

/-- Run a tracked element through a list of events, counting network
requests. -/
def runElemStep (acc : TrackedElem × Nat) (ev : ImgEvent) : TrackedElem × Nat :=
  let r := stepElem acc.1 ev
  (r.1, acc.2 + (if r.2.1 then 1 else 0))

def runElem (e : TrackedElem) (evs : List ImgEvent) : TrackedElem × Nat :=
  evs.foldl runElemStep (e, 0)

/-- A container entry: the element plus its promotion and request
counters. -/
abbrev ContainerEntry : Type := TrackedElem × Nat × Nat

/-- Modelled from the spec: on attach the Proximity Loader registers every
marker-tagged element as `Pending` and observes it. -/
def registerElems (urls : List (List Char)) : List ContainerEntry :=
  urls.map (fun u => (freshElem u, 0, 0))

/-- Deliver an event to the entry at the given index, updating its
counters. -/
def updateAt : List ContainerEntry → Nat → ImgEvent → List ContainerEntry
  | [], _, _ => []
  | e :: es, 0, ev =>
    let r := stepElem e.1 ev
    (r.1, e.2.1 + (if r.2.2 then 1 else 0), e.2.2 + (if r.2.1 then 1 else 0)) :: es
  | e :: es, i + 1, ev => e :: updateAt es i ev

/-- Run a container through a list of indexed events. -/
def runContainer (entries : List ContainerEntry)
    (evs : List (Nat × ImgEvent)) : List ContainerEntry :=
  evs.foldl (fun acc p => updateAt acc p.1 p.2) entries

/-- Modelled from the spec: `useLazyImages` (module not among the provided
sources) as a transition system: register the container's tagged elements,
then process proximity and load events. -/
def useLazyImages (urls : List (List Char))
    (evs : List (Nat × ImgEvent)) : List ContainerEntry :=
  runContainer (registerElems urls) evs

/-- The bounded ceiling (in ticks) after which idle preload tasks run even
without an idle signal. -/
def idleCeiling : Nat := 5

/-- State of the Idle Preload Scheduler: pending tasks (URL id and remaining
ticks before the forced deadline) plus executed tasks in execution order. -/
structure SchedulerState where
  pending : List (Nat × Nat)
  executed : List Nat
deriving DecidableEq, Repr

/-- Modelled from the spec: `preloadImagesWhenIdle` of
`utils/imagePreloader` (module not among the provided sources).  Each URL
becomes a pending preload task whose forced deadline is the bounded
ceiling. -/
def preloadImagesWhenIdle (urls : List Nat) : SchedulerState :=
  { pending := urls.map (fun u => (u, idleCeiling)), executed := [] }

/-- One unit of time passing with no idle signal: countdowns decrease and
tasks whose ceiling elapsed are executed. -/
def schedTick (s : SchedulerState) : SchedulerState :=
  let dec := s.pending.map (fun t => (t.1, t.2 - 1))
  { pending := dec.filter (fun t => !(t.2 = 0)),
    executed := s.executed ++ (dec.filter (fun t => t.2 = 0)).map (fun t => t.1) }

/-- An idle-capacity signal: all pending tasks execute. -/
def schedIdle (s : SchedulerState) : SchedulerState :=
  { pending := [], executed := s.executed ++ s.pending.map (fun t => t.1) }

/-- Let the given number of ticks elapse with no idle signal. -/
def runTicks : Nat → SchedulerState → SchedulerState
  | 0, s => s
  | n + 1, s => runTicks n (schedTick s)

/-- A slug-alphabet character: lowercase ASCII letter or digit, as matched
by the regex class `[a-z0-9]` of `generateSlug`. -/
def isSlugChar (c : Char) : Bool :=
  (decide ('a' ≤ c) && decide (c ≤ 'z')) ||
  (decide ('0' ≤ c) && decide (c ≤ '9'))

/-- The replacement pass `.replace(/[^a-z0-9]+/g, '-')` of `generateSlug`
(`NewsEditor.tsx`): each maximal run of non-slug characters becomes a single
hyphen.  The flag records whether the previous character already produced a
hyphen. -/
def collapseAux : Bool → List Char → List Char
  | _, [] => []
  | prevHyph, c :: cs =>
    if isSlugChar c then c :: collapseAux false cs
    else if prevHyph then collapseAux true cs
    else '-' :: collapseAux true cs

/-- Drop one leading hyphen (the `^-` alternative of
`.replace(/(^-|-$)/g, '')`). -/
def dropLead : List Char → List Char
  | [] => []
  | c :: cs => if c = '-' then cs else c :: cs

/-- Drop one trailing hyphen (the `-$` alternative of
`.replace(/(^-|-$)/g, '')`). -/
def dropTrail (l : List Char) : List Char := (dropLead l.reverse).reverse

/-- Embedded from `src/components/admin/NewsEditor.tsx` lines 80–85:
`generateSlug` lower-cases the title, replaces runs of non-alphanumeric
characters by single hyphens, and strips a leading and a trailing hyphen.
(Character-wise `Char.toLower` stands in for JavaScript's
`String.prototype.toLowerCase`.) -/
def generateSlug (title : List Char) : List Char :=
  dropTrail (dropLead (collapseAux false (title.map Char.toLower)))

/-- No two consecutive hyphens occur in the list. -/
def noConsecHyphens : List Char → Bool
  | a :: b :: r => !(a = '-' && b = '-') && noConsecHyphens (b :: r)
  | _ => true

/-- Every character is a slug character or a hyphen. -/
def slugAlphabet (l : List Char) : Bool :=
  l.all (fun c => isSlugChar c || c = '-')

/-- The list does not start with a hyphen. -/
def headNotHyphen : List Char → Bool
  | [] => true
  | c :: _ => !(c = '-')

/-- The list does not end with a hyphen. -/
def lastNotHyphen (l : List Char) : Bool := headNotHyphen l.reverse

/-- A well-formed slug: slug alphabet only, no consecutive hyphens, no
leading or trailing hyphen. -/
def isSlug (l : List Char) : Bool :=
  slugAlphabet l && noConsecHyphens l && headNotHyphen l && lastNotHyphen l

/-- JavaScript `String.prototype.trim` whitespace. -/
def isJsWs (c : Char) : Bool :=
  c = ' ' || c = Char.ofNat 9 || c = Char.ofNat 10 || c = Char.ofNat 11 ||
  c = Char.ofNat 12 || c = Char.ofNat 13 || c = Char.ofNat 160 ||
  c = Char.ofNat 0x2028 || c = Char.ofNat 0x2029 || c = Char.ofNat 0xFEFF

/-- JavaScript `content.trim()`. -/
def jsTrim (s : List Char) : List Char :=
  ((s.dropWhile isJsWs).reverse.dropWhile isJsWs).reverse

/-- A database write performed by the news editor's submit handler. -/
inductive NewsDbWrite where
  | updateNews (id : List Char)
  | insertNews
deriving DecidableEq, Repr

/-- Observable outcome of `onSubmit`: the database writes issued and whether
the empty-content validation toast was shown. -/
structure SubmitOutcome where
  writes : List NewsDbWrite
  validationToast : Bool
deriving DecidableEq, Repr

/-- The literal id `'new'` of an unsaved news item. -/
def newLit : List Char := "new".toList

/-- Embedded from `src/components/admin/NewsEditor.tsx` lines 112–146:
`onSubmit` returns after a validation toast when the trimmed rich-text
content is empty; otherwise it updates the existing row when `id` is truthy
and not `'new'`, and inserts a new row otherwise. -/
def onSubmit (id : Option (List Char)) (content : List Char) : SubmitOutcome :=
  if (jsTrim content).isEmpty then { writes := [], validationToast := true }
  else
    match id with
    | some s =>
      if !s.isEmpty && !(s = newLit) then
        { writes := [.updateNews s], validationToast := false }
      else { writes := [.insertNews], validationToast := false }
    | none => { writes := [.insertNews], validationToast := false }

/-- Trimming an all-whitespace string yields the empty string. -/
theorem jsTrim_all_ws (content : List Char) (h : content.all isJsWs = true) :
    jsTrim content = [] := by
  have h1 : content.dropWhile isJsWs = [] := by
    rw [List.dropWhile_eq_nil_iff]
    intro x hx
    exact List.all_eq_true.mp h x hx
  simp [jsTrim, h1]

/-- C10: when the rich-text content is empty or whitespace-only, `onSubmit`
performs no database write (neither update nor insert) and returns after
surfacing the validation message. -/
theorem onSubmit_blank_content_no_write (id : Option (List Char))
    (content : List Char) (h : content.all isJsWs = true) :
    onSubmit id content = { writes := [], validationToast := true } := by
  have h1 : jsTrim content = [] := jsTrim_all_ws content h
  simp [onSubmit, h1]

/-- Witness for C10 at a concrete whitespace-only content and an existing
row id. -/
theorem onSubmit_blank_content_no_write_witness :
    ([' ', Char.ofNat 10] : List Char).all isJsWs = true ∧
      onSubmit (some ['7']) [' ', Char.ofNat 10] =
        { writes := [], validationToast := true } :=
  ⟨by decide, onSubmit_blank_content_no_write (some ['7']) [' ', Char.ofNat 10]
    (by decide)⟩

/-- Filtering a constant-countdown task list on the countdown keeps all or
nothing. -/
theorem filter_snd_map_const (p : Nat → Bool) (v : Nat) (urls : List Nat) :
    (urls.map (fun u => (u, v))).filter (fun t => p t.2) =
      if p v then urls.map (fun u => (u, v)) else [] := by
  induction urls with
  | nil => simp
  | cons a t ih =>
    simp only [List.map_cons, List.filter_cons]
    by_cases hp : p v <;> simp [hp, ih]

/-- Ticks do nothing once the task queue is drained. -/
theorem runTicks_empty_pending (k : Nat) (ex : List Nat) :
    runTicks k { pending := [], executed := ex } =
      { pending := [], executed := ex } := by
  induction k with
  | zero => rfl
  | succ n ih => simpa [runTicks, schedTick] using ih

/-- After `k` ticks, a uniform task queue either counts down uniformly or —
once the ceiling elapsed — is fully executed in order. -/
theorem runTicks_uniform (k : Nat) :
    ∀ (r : Nat) (urls ex : List Nat), 0 < r →
      runTicks k { pending := urls.map (fun u => (u, r)), executed := ex } =
        if k < r then
          { pending := urls.map (fun u => (u, r - k)), executed := ex }
        else { pending := [], executed := ex ++ urls } := by
  induction k with
  | zero =>
    intro r urls ex hr
    simp [runTicks, hr]
  | succ n ih =>
    intro r urls ex hr
    have hdec : (urls.map (fun u => (u, r))).map (fun t => (t.1, t.2 - 1)) =
        urls.map (fun u => (u, r - 1)) := by
      simp [List.map_map]
    rcases Nat.lt_or_ge 1 r with h1 | h1
    · have hr1 : 0 < r - 1 := by omega
      have hstep : schedTick { pending := urls.map (fun u => (u, r)), executed := ex } =
          { pending := urls.map (fun u => (u, r - 1)), executed := ex } := by
        simp only [schedTick, hdec]
        rw [filter_snd_map_const (fun n => !(n = 0)) (r - 1) urls,
          filter_snd_map_const (fun n => n = 0) (r - 1) urls]
        have : ¬(r - 1 = 0) := by omega
        simp [this]
      rw [runTicks, hstep, ih (r - 1) urls ex hr1]
      by_cases hk : n < r - 1
      · have hk2 : n + 1 < r := by omega
        simp [hk, hk2]
        omega
      · have hk2 : ¬(n + 1 < r) := by omega
        simp [hk, hk2]
    · have hr1 : r = 1 := by omega
      subst hr1
      have hstep : schedTick { pending := urls.map (fun u => (u, 1)), executed := ex } =
          { pending := [], executed := ex ++ urls } := by
        simp only [schedTick, hdec]
        rw [filter_snd_map_const (fun n => !(n = 0)) 0 urls,
          filter_snd_map_const (fun n => n = 0) 0 urls]
        simp [List.map_map]
        exact List.map_id urls
      rw [runTicks, hstep, runTicks_empty_pending]
      have : ¬(n + 1 < 1) := by omega
      simp [this]

/-- C6: every preload task enqueued by the Idle Preload Scheduler executes
once the bounded ceiling elapses, even when no idle signal ever fires. -/
theorem preload_executes_after_ceiling (urls : List Nat) (n : Nat)
    (h : idleCeiling ≤ n) :
    runTicks n (preloadImagesWhenIdle urls) =
      { pending := [], executed := urls } := by
  have h0 : 0 < idleCeiling := by decide
  have := runTicks_uniform n idleCeiling urls [] h0
  rw [preloadImagesWhenIdle, this]
  have : ¬(n < idleCeiling) := by omega
  simp [this]

/-- Witness for C6: 50 URLs with no idle signal are all executed once the
ceiling elapses. -/
theorem preload_executes_after_ceiling_witness :
    idleCeiling ≤ idleCeiling ∧
      runTicks idleCeiling (preloadImagesWhenIdle (List.range 50)) =
        { pending := [], executed := List.range 50 } :=
  ⟨Nat.le_refl _,
    preload_executes_after_ceiling (List.range 50) idleCeiling (Nat.le_refl _)⟩

/-- A transition never touches the deferred-source attribute. -/
theorem stepElem_dataSrc (e : TrackedElem) (ev : ImgEvent) :
    (stepElem e ev).1.dataSrc = e.dataSrc := by
  rcases e with ⟨st, att, ob, src, ds⟩
  cases ev <;> cases st
  all_goals first
  | rfl
  | (simp only [stepElem]; split <;> rfl)

/-- Over any event sequence the deferred-source attribute is preserved. -/
theorem runElem_foldl_dataSrc (evs : List ImgEvent) :
    ∀ p : TrackedElem × Nat,
      (evs.foldl runElemStep p).1.dataSrc = p.1.dataSrc := by
  induction evs with
  | nil => intro p; rfl
  | cons ev t ih =>
    intro p
    rw [List.foldl_cons, ih]
    exact stepElem_dataSrc p.1 ev

/-- A terminally failed element absorbs every further event without issuing
requests. -/
theorem foldl_failed_absorbing (u : List Char) (evs : List ImgEvent) :
    ∀ n : Nat, evs.foldl runElemStep (failedElem u, n) = (failedElem u, n) := by
  induction evs with
  | nil => intro n; rfl
  | cons ev t ih =>
    intro n
    have hstep : runElemStep (failedElem u, n) ev = (failedElem u, n) := by
      cases ev <;> rfl
    rw [List.foldl_cons, hstep, ih]

/-- C5: the deferred source of a tracked element is never cleared; after a
failed promotion the same promotion is retried exactly once (the load error
triggers a second request re-copying the deferred source), and a second
failure leaves the element terminally `Failed` — any further events are
ignored and no further requests are issued (the request count stays at the
promotion plus its single retry). -/
theorem promotion_retry_once (u : List Char) (evs : List ImgEvent) :
    (runElem (freshElem u) evs).1.dataSrc = some u ∧
      runElem (freshElem u) [ImgEvent.proximity, ImgEvent.loadErr] =
        ({ state := .Preloading, attempts := 2, observed := false,
           src := some u, dataSrc := some u }, 2) ∧
      runElem (freshElem u)
          (ImgEvent.proximity :: ImgEvent.loadErr :: ImgEvent.loadErr :: evs) =
        (failedElem u, 2) := by
  refine ⟨runElem_foldl_dataSrc evs (freshElem u, 0), rfl, ?_⟩
  show List.foldl runElemStep (freshElem u, 0) _ = _
  rw [List.foldl_cons, List.foldl_cons, List.foldl_cons]
  exact foldl_failed_absorbing u evs 2

/-- Invariant of a container entry: at most one promotion so far, none while
still `Pending`, and a promoted element is unobserved with its live source
copied from the deferred source. -/
def PhiP (e : TrackedElem) (n : Nat) : Prop :=
  n ≤ 1 ∧ (e.state = .Pending → n = 0) ∧
    (1 ≤ n → e.observed = false ∧ e.src = e.dataSrc)

/-- The entry invariant is preserved by every transition. -/
theorem stepElem_phi (e : TrackedElem) (n : Nat) (ev : ImgEvent)
    (h : PhiP e n) :
    PhiP (stepElem e ev).1 (n + (if (stepElem e ev).2.2 then 1 else 0)) := by
  rcases e with ⟨st, att, ob, src, ds⟩
  obtain ⟨h1, h2, h3⟩ := h
  cases ev <;> cases st <;>
    simp_all [stepElem, PhiP]
  split <;> simp_all

/-- Delivering an event preserves the entry invariant across the
container. -/
theorem updateAt_phi :
    ∀ (es : List ContainerEntry) (j : Nat) (ev : ImgEvent),
      (∀ c ∈ es, PhiP c.1 c.2.1) → ∀ c ∈ updateAt es j ev, PhiP c.1 c.2.1 := by
  intro es
  induction es with
  | nil => intro j ev _ c hc; simp [updateAt] at hc
  | cons e t ih =>
    intro j ev h c hc
    cases j with
    | zero =>
      simp only [updateAt, List.mem_cons] at hc
      rcases hc with hc | hc
      · subst hc
        exact stepElem_phi e.1 e.2.1 ev (h e (List.mem_cons_self e t))
      · exact h c (List.mem_cons_of_mem e hc)
    | succ j =>
      simp only [updateAt, List.mem_cons] at hc
      rcases hc with hc | hc
      · subst hc; exact h c (List.mem_cons_self c t)
      · exact ih j ev (fun x hx => h x (List.mem_cons_of_mem e hx)) c hc

/-- Running a container preserves the entry invariant. -/
theorem runContainer_phi :
    ∀ (evs : List (Nat × ImgEvent)) (entries : List ContainerEntry),
      (∀ c ∈ entries, PhiP c.1 c.2.1) →
      ∀ c ∈ runContainer entries evs, PhiP c.1 c.2.1 := by
  intro evs
  induction evs with
  | nil => intro entries h c hc; exact h c hc
  | cons p t ih =>
    intro entries h c hc
    exact ih (updateAt entries p.1 p.2) (updateAt_phi entries p.1 p.2 h) c hc

/-- Freshly registered entries satisfy the invariant. -/
theorem registerElems_phi (urls : List (List Char)) :
    ∀ c ∈ registerElems urls, PhiP c.1 c.2.1 := by
  intro c hc
  simp only [registerElems, List.mem_map] at hc
  obtain ⟨u, _, rfl⟩ := hc
  exact ⟨Nat.zero_le 1, fun _ => rfl, fun h => absurd h (Nat.not_succ_le_zero 0)⟩

/-- Boolean form of the at-most-one-promotion property of an entry. -/
def promotedAtMostOnce (c : ContainerEntry) : Bool :=
  decide (c.2.1 ≤ 1) &&
    (decide (c.2.1 = 0) || (!c.1.observed && c.1.src == c.1.dataSrc))

/-- C4: for every container and tracked element, the Proximity Loader
performs the `Pending → Preloading` promotion at most once per element, even
under repeated or spurious proximity signals; a promoted element is no
longer observed and its live source was copied from its deferred source. -/
theorem proximity_promotes_at_most_once (urls : List (List Char))
    (evs : List (Nat × ImgEvent)) (i : Nat) (c : ContainerEntry)
    (h : (useLazyImages urls evs).get? i = some c) :
    promotedAtMostOnce c = true := by
  have hmem : c ∈ useLazyImages urls evs := List.get?_mem h
  have hphi : PhiP c.1 c.2.1 :=
    runContainer_phi evs (registerElems urls) (registerElems_phi urls) c hmem
  obtain ⟨h1, _, h3⟩ := hphi
  simp only [promotedAtMostOnce, Bool.and_eq_true, decide_eq_true_eq,
    Bool.or_eq_true, Bool.not_eq_true', beq_iff_eq]
  refine ⟨h1, ?_⟩
  rcases Nat.eq_zero_or_pos c.2.1 with h0 | h0
  · exact Or.inl h0
  · exact Or.inr ⟨(h3 h0).1, (h3 h0).2⟩

/-- Witness for C4: one element receiving two proximity signals is promoted
once, unobserved afterwards, and its live source equals its deferred
source. -/
theorem proximity_promotes_at_most_once_witness :
    promotedAtMostOnce
      (({ state := .Preloading, attempts := 1, observed := false,
          src := some ['u'], dataSrc := some ['u'] }, 1, 1) : ContainerEntry) = true :=
  proximity_promotes_at_most_once [['u']]
    [(0, ImgEvent.proximity), (0, ImgEvent.proximity)] 0 _ (by decide)

/-- No event of the list is a proximity signal for element `i`. -/
def noProxFor (i : Nat) (evs : List (Nat × ImgEvent)) : Bool :=
  evs.all (fun p => !(decide (p.1 = i) && decide (p.2 = ImgEvent.proximity)))

/-- Delivering an event to another index leaves an entry unchanged. -/
theorem updateAt_get?_ne :
    ∀ (es : List ContainerEntry) (j : Nat) (ev : ImgEvent) (i : Nat), j ≠ i →
      (updateAt es j ev).get? i = es.get? i := by
  intro es
  induction es with
  | nil => intro j ev i _; simp [updateAt]
  | cons e t ih =>
    intro j ev i hne
    cases j with
    | zero =>
      cases i with
      | zero => exact absurd rfl hne
      | succ i => simp [updateAt]
    | succ j =>
      cases i with
      | zero => simp [updateAt]
      | succ i => simpa [updateAt] using ih j ev i (by omega)

/-- Delivering an event past the container's end changes nothing. -/
theorem updateAt_out :
    ∀ (es : List ContainerEntry) (j : Nat) (ev : ImgEvent),
      es.get? j = none → updateAt es j ev = es := by
  intro es
  induction es with
  | nil => intro j ev _; cases j <;> rfl
  | cons e t ih =>
    intro j ev h
    cases j with
    | zero => simp at h
    | succ j => simpa [updateAt] using ih j ev (by simpa using h)

/-- Effect of delivering an event to an existing entry. -/
theorem updateAt_get?_eq :
    ∀ (es : List ContainerEntry) (j : Nat) (ev : ImgEvent) (c : ContainerEntry),
      es.get? j = some c →
      (updateAt es j ev).get? j =
        some ((stepElem c.1 ev).1,
          c.2.1 + (if (stepElem c.1 ev).2.2 then 1 else 0),
          c.2.2 + (if (stepElem c.1 ev).2.1 then 1 else 0)) := by
  intro es
  induction es with
  | nil => intro j ev c h; simp at h
  | cons e t ih =>
    intro j ev c h
    cases j with
    | zero =>
      simp only [List.get?] at h
      obtain rfl : e = c := by injection h
      rfl
    | succ j => simpa [updateAt] using ih j ev c (by simpa using h)

/-- Without a proximity signal for index `i`, the entry at `i` stays
`Pending` with no requests. -/
theorem c8_invariant :
    ∀ (evs : List (Nat × ImgEvent)) (entries : List ContainerEntry) (i : Nat),
      noProxFor i evs = true →
      (∀ c, entries.get? i = some c → c.1.state = .Pending ∧ c.2.2 = 0) →
      ∀ c, (runContainer entries evs).get? i = some c →
        c.1.state = .Pending ∧ c.2.2 = 0 := by
  intro evs
  induction evs with
  | nil => intro entries i _ h c hc; exact h c hc
  | cons p t ih =>
    intro entries i hno h c hc
    rw [noProxFor, List.all_cons, Bool.and_eq_true] at hno
    obtain ⟨hhead, htail⟩ := hno
    refine ih (updateAt entries p.1 p.2) i htail ?_ c hc
    intro c0 hc0
    by_cases hji : p.1 = i
    · subst hji
      cases hget : entries.get? p.1 with
      | none =>
        rw [updateAt_out entries p.1 p.2 hget] at hc0
        rw [hget] at hc0
        exact absurd hc0 (by simp)
      | some c1 =>
        obtain ⟨hst, hrq⟩ := h c1 hget
        rw [updateAt_get?_eq entries p.1 p.2 c1 hget] at hc0
        have hev : ¬(p.2 = ImgEvent.proximity) := by
          intro hp
          simp [hp] at hhead
        obtain rfl : c0 = ((stepElem c1.1 p.2).1,
            c1.2.1 + (if (stepElem c1.1 p.2).2.2 then 1 else 0),
            c1.2.2 + (if (stepElem c1.1 p.2).2.1 then 1 else 0)) := by
          injection hc0 with h'; exact h'.symm
        cases hp2 : p.2 with
        | proximity => exact absurd hp2 hev
        | loadOk =>
          have hs : stepElem c1.1 ImgEvent.loadOk = (c1.1, false, false) := by
            simp [stepElem, hst]
          simp [hp2, hs, hst, hrq]
        | loadErr =>
          have hs : stepElem c1.1 ImgEvent.loadErr = (c1.1, false, false) := by
            simp [stepElem, hst]
          simp [hp2, hs, hst, hrq]
    · rw [updateAt_get?_ne entries p.1 p.2 i hji] at hc0
      exact h c0 hc0

/-- C8: while no proximity signal fires for a tagged element, it stays
`Pending` and the Proximity Loader issues no network request for it. -/
theorem pending_until_proximity (urls : List (List Char))
    (evs : List (Nat × ImgEvent)) (i : Nat) (c : ContainerEntry)
    (hno : noProxFor i evs = true)
    (h : (useLazyImages urls evs).get? i = some c) :
    c.1.state = .Pending ∧ c.2.2 = 0 := by
  refine c8_invariant evs (registerElems urls) i hno ?_ c h
  intro c0 hc0
  rw [registerElems, List.get?_eq_getElem?, List.getElem?_map,
    ← List.get?_eq_getElem?] at hc0
  cases hu : urls.get? i with
  | none => rw [hu] at hc0; exact absurd hc0 (by simp)
  | some u =>
    rw [hu] at hc0
    obtain rfl : c0 = (freshElem u, 0, 0) := by injection hc0 with h'; exact h'.symm
    exact ⟨rfl, rfl⟩

/-- Witness for C8: an element that only ever receives load events (and
whose sibling gets the only proximity signal) stays `Pending` with zero
requests. -/
theorem pending_until_proximity_witness :
    ((freshElem ['u'], 0, 0) : ContainerEntry).1.state = .Pending ∧
      ((freshElem ['u'], 0, 0) : ContainerEntry).2.2 = 0 :=
  pending_until_proximity [['u'], ['v']]
    [(0, ImgEvent.loadOk), (1, ImgEvent.proximity), (0, ImgEvent.loadErr)] 0 _
    (by decide) (by decide)

/-- Slug characters and hyphens are fixed points of `Char.toLower`. -/
theorem toLower_fix (c : Char) (h : (isSlugChar c || c = '-') = true) :
    Char.toLower c = c := by
  rw [Bool.or_eq_true] at h
  rcases h with h | h
  · rw [isSlugChar, Bool.or_eq_true, Bool.and_eq_true, Bool.and_eq_true] at h
    unfold Char.toLower
    rcases h with ⟨h1, h2⟩ | ⟨h1, h2⟩
    · have hn : 97 ≤ c.toNat := by
        rw [decide_eq_true_eq, Char.le_def] at h1
        exact h1
      have : ¬(c.toNat ≥ 65 ∧ c.toNat ≤ 90) := by omega
      simp [this]
    · have hn : c.toNat ≤ 57 := by
        rw [decide_eq_true_eq, Char.le_def] at h2
        exact h2
      have : ¬(c.toNat ≥ 65 ∧ c.toNat ≤ 90) := by omega
      simp [this]
  · rw [decide_eq_true_eq] at h
    subst h
    decide

/-- Lower-casing a well-formed slug changes nothing. -/
theorem map_toLower_slug (l : List Char) (h : slugAlphabet l = true) :
    l.map Char.toLower = l := by
  induction l with
  | nil => rfl
  | cons c t ih =>
    rw [slugAlphabet, List.all_cons, Bool.and_eq_true] at h
    rw [List.map_cons, toLower_fix c h.1, ih h.2]

/-- A slug character is not a hyphen. -/
theorem slugChar_ne_hyphen (c : Char) (h : isSlugChar c = true) : ¬(c = '-') := by
  intro hc
  subst hc
  exact absurd h (by decide)

/-- The collapse pass emits only slug characters and hyphens. -/
theorem collapseAux_alphabet : ∀ (l : List Char) (b : Bool),
    slugAlphabet (collapseAux b l) = true := by
  intro l
  induction l with
  | nil => intro b; rfl
  | cons c t ih =>
    intro b
    by_cases hc : isSlugChar c = true
    · rw [collapseAux, if_pos hc, slugAlphabet, List.all_cons, Bool.and_eq_true]
      exact ⟨by simp [hc], ih false⟩
    · rw [collapseAux, if_neg hc]
      cases b with
      | true => exact ih true
      | false =>
        rw [if_neg (by simp), slugAlphabet, List.all_cons, Bool.and_eq_true]
        exact ⟨by decide, ih true⟩

/-- After a hyphen was just emitted the collapse pass cannot emit another
one first. -/
theorem collapseAux_head_true : ∀ l : List Char,
    headNotHyphen (collapseAux true l) = true := by
  intro l
  induction l with
  | nil => rfl
  | cons c t ih =>
    by_cases hc : isSlugChar c = true
    · simp [collapseAux, hc, headNotHyphen, slugChar_ne_hyphen c hc]
    · simp [collapseAux, hc, ih]

/-- Cons unfolding of the no-consecutive-hyphens predicate. -/
theorem noConsecHyphens_cons (a : Char) (l : List Char) :
    noConsecHyphens (a :: l) =
      ((headNotHyphen l || !(a = '-')) && noConsecHyphens l) := by
  cases l with
  | nil => simp [noConsecHyphens, headNotHyphen]
  | cons b r =>
    show (!(a = '-' && b = '-') && noConsecHyphens (b :: r)) = _
    simp only [headNotHyphen]
    congr 1
    cases ha : decide (a = '-') <;> cases hb : decide (b = '-') <;>
      simp_all

/-- The collapse pass never emits two consecutive hyphens. -/
theorem collapseAux_noConsec : ∀ (l : List Char) (b : Bool),
    noConsecHyphens (collapseAux b l) = true := by
  intro l
  induction l with
  | nil => intro b; rfl
  | cons c t ih =>
    intro b
    by_cases hc : isSlugChar c = true
    · rw [collapseAux, if_pos hc, noConsecHyphens_cons, Bool.and_eq_true]
      constructor
      · have : (!decide (c = '-')) = true := by
          simp [slugChar_ne_hyphen c hc]
        simp [this]
      · exact ih false
    · rw [collapseAux, if_neg hc]
      cases b with
      | true => exact ih true
      | false =>
        rw [if_neg (by simp), noConsecHyphens_cons, Bool.and_eq_true]
        exact ⟨by simp [collapseAux_head_true t], ih true⟩

/-- Tail preservation of the slug alphabet. -/
theorem slugAlphabet_tail (c : Char) (l : List Char)
    (h : slugAlphabet (c :: l) = true) : slugAlphabet l = true := by
  rw [slugAlphabet, List.all_cons, Bool.and_eq_true] at h
  exact h.2

/-- Tail preservation of the no-consecutive-hyphens predicate. -/
theorem noConsecHyphens_tail (c : Char) (l : List Char)
    (h : noConsecHyphens (c :: l) = true) : noConsecHyphens l = true := by
  rw [noConsecHyphens_cons, Bool.and_eq_true] at h
  exact h.2

/-- Dropping one lead hyphen from a hyphen-collapsed list leaves no leading
hyphen. -/
theorem dropLead_headNotHyphen (l : List Char)
    (h : noConsecHyphens l = true) : headNotHyphen (dropLead l) = true := by
  cases l with
  | nil => rfl
  | cons c t =>
    by_cases hc : c = '-'
    · subst hc
      rw [dropLead, if_pos rfl]
      rw [noConsecHyphens_cons, Bool.and_eq_true] at h
      have := h.1
      simpa using this
    · rw [dropLead, if_neg hc]
      simpa [headNotHyphen] using hc

/-- `dropLead` preserves the slug alphabet. -/
theorem dropLead_alphabet (l : List Char) (h : slugAlphabet l = true) :
    slugAlphabet (dropLead l) = true := by
  cases l with
  | nil => rfl
  | cons c t =>
    rw [dropLead]
    split
    · exact slugAlphabet_tail c t h
    · exact h

/-- `dropLead` preserves the no-consecutive-hyphens predicate. -/
theorem dropLead_noConsec (l : List Char) (h : noConsecHyphens l = true) :
    noConsecHyphens (dropLead l) = true := by
  cases l with
  | nil => rfl
  | cons c t =>
    rw [dropLead]
    split
    · exact noConsecHyphens_tail c t h
    · exact h

/-- The head of a non-empty list is unchanged by appending. -/
theorem headNotHyphen_append (xs : List Char) (a : Char) (hne : xs ≠ []) :
    headNotHyphen (xs ++ [a]) = headNotHyphen xs := by
  cases xs with
  | nil => exact absurd rfl hne
  | cons c t => rfl

/-- Snoc unfolding of the no-consecutive-hyphens predicate. -/
theorem noConsecHyphens_snoc (xs : List Char) (a : Char) :
    noConsecHyphens (xs ++ [a]) =
      (noConsecHyphens xs && (!(a = '-') || lastNotHyphen xs)) := by
  induction xs with
  | nil => simp [noConsecHyphens, lastNotHyphen, headNotHyphen]
  | cons x t ih =>
    rw [List.cons_append, noConsecHyphens_cons, ih, noConsecHyphens_cons]
    cases t with
    | nil =>
      simp only [List.nil_append, headNotHyphen, noConsecHyphens,
        lastNotHyphen, List.reverse_nil, List.reverse_cons]
      cases ha : decide (a = '-') <;> cases hx : decide (x = '-') <;> simp_all
    | cons y r =>
      have h1 : headNotHyphen ((y :: r) ++ [a]) = headNotHyphen (y :: r) :=
        headNotHyphen_append (y :: r) a (by simp)
      have h2 : lastNotHyphen (x :: y :: r) = lastNotHyphen (y :: r) := by
        rw [lastNotHyphen, lastNotHyphen, List.reverse_cons]
        exact headNotHyphen_append (y :: r).reverse x (by simp)
      rw [h1, h2]
      cases noConsecHyphens (y :: r) <;>
        cases headNotHyphen (y :: r) <;>
        cases ha : decide (a = '-') <;>
        cases hx : decide (x = '-') <;>
        cases lastNotHyphen (y :: r) <;> simp_all

/-- Reversal preserves the no-consecutive-hyphens predicate. -/
theorem noConsecHyphens_reverse (l : List Char) :
    noConsecHyphens l.reverse = noConsecHyphens l := by
  induction l with
  | nil => rfl
  | cons c t ih =>
    rw [List.reverse_cons, noConsecHyphens_snoc, ih, noConsecHyphens_cons,
      lastNotHyphen, List.reverse_reverse]
    cases noConsecHyphens t <;> cases headNotHyphen t <;>
      cases hc : decide (c = '-') <;> simp_all

/-- Reversal preserves the slug alphabet. -/
theorem slugAlphabet_reverse (l : List Char) :
    slugAlphabet l.reverse = slugAlphabet l := by
  rw [Bool.eq_iff_iff, slugAlphabet, slugAlphabet, List.all_eq_true,
    List.all_eq_true]
  constructor
  · intro h c hc
    exact h c (List.mem_reverse.mpr hc)
  · intro h c hc
    exact h c (List.mem_reverse.mp hc)

/-- `dropLead` preserves the absence of a trailing hyphen. -/
theorem dropLead_lastNotHyphen (l : List Char)
    (h : lastNotHyphen l = true) : lastNotHyphen (dropLead l) = true := by
  cases l with
  | nil => rfl
  | cons c t =>
    rw [dropLead]
    split
    · cases t with
      | nil => rfl
      | cons y r =>
        rw [lastNotHyphen, List.reverse_cons] at h
        rw [headNotHyphen_append (y :: r).reverse c (by simp)] at h
        exact h
    · exact h

/-- The output of `generateSlug` is a well-formed slug. -/
theorem generateSlug_isSlug (s : List Char) :
    isSlug (generateSlug s) = true := by
  rw [generateSlug]
  set X0 := collapseAux false (s.map Char.toLower) with hX0
  have hA0 : slugAlphabet X0 = true := collapseAux_alphabet _ false
  have hN0 : noConsecHyphens X0 = true := collapseAux_noConsec _ false
  set X1 := dropLead X0 with hX1
  have hA1 : slugAlphabet X1 = true := dropLead_alphabet X0 hA0
  have hN1 : noConsecHyphens X1 = true := dropLead_noConsec X0 hN0
  have hH1 : headNotHyphen X1 = true := dropLead_headNotHyphen X0 hN0
  rw [dropTrail]
  set W := dropLead X1.reverse with hW
  have hNrev : noConsecHyphens X1.reverse = true := by
    rw [noConsecHyphens_reverse]; exact hN1
  have hArev : slugAlphabet X1.reverse = true := by
    rw [slugAlphabet_reverse]; exact hA1
  have hHW : headNotHyphen W = true := dropLead_headNotHyphen X1.reverse hNrev
  have hLW : lastNotHyphen W = true := by
    refine dropLead_lastNotHyphen X1.reverse ?_
    rw [lastNotHyphen, List.reverse_reverse]
    exact hH1
  rw [isSlug]
  have c1 : slugAlphabet W.reverse = true := by
    rw [slugAlphabet_reverse]; exact dropLead_alphabet X1.reverse hArev
  have c2 : noConsecHyphens W.reverse = true := by
    rw [noConsecHyphens_reverse]; exact dropLead_noConsec X1.reverse hNrev
  have c3 : headNotHyphen W.reverse = true := hLW
  have c4 : lastNotHyphen W.reverse = true := by
    rw [lastNotHyphen, List.reverse_reverse]; exact hHW
  rw [c1, c2, c3, c4]
  rfl

/-- The collapse pass is the identity on hyphen-collapsed slug-alphabet
lists (with no leading hyphen when a hyphen was just emitted). -/
theorem collapseAux_id : ∀ l : List Char, slugAlphabet l = true →
    noConsecHyphens l = true → ∀ b : Bool,
    (b = true → headNotHyphen l = true) → collapseAux b l = l := by
  intro l
  induction l with
  | nil => intro _ _ b _; cases b <;> rfl
  | cons c t ih =>
    intro hA hN b hb
    by_cases hc : isSlugChar c = true
    · rw [collapseAux, if_pos hc,
        ih (slugAlphabet_tail c t hA) (noConsecHyphens_tail c t hN) false
          (by simp)]
    · have hchy : c = '-' := by
        rw [slugAlphabet, List.all_cons, Bool.and_eq_true] at hA
        have := hA.1
        rw [Bool.or_eq_true] at this
        rcases this with h | h
        · exact absurd h hc
        · exact of_decide_eq_true h
      cases b with
      | true =>
        exfalso
        have := hb rfl
        rw [headNotHyphen, hchy] at this
        simp at this
      | false =>
        rw [collapseAux, if_neg hc, if_neg (by simp)]
        have hht : headNotHyphen t = true := by
          subst hchy
          rw [noConsecHyphens_cons, Bool.and_eq_true] at hN
          have := hN.1
          simpa using this
        rw [ih (slugAlphabet_tail c t hA) (noConsecHyphens_tail c t hN) true
          (fun _ => hht), hchy]

/-- `dropLead` is the identity without a leading hyphen. -/
theorem dropLead_id (l : List Char) (h : headNotHyphen l = true) :
    dropLead l = l := by
  cases l with
  | nil => rfl
  | cons c t =>
    rw [headNotHyphen] at h
    rw [dropLead, if_neg (by simpa using h)]

/-- `dropTrail` is the identity without a trailing hyphen. -/
theorem dropTrail_id (l : List Char) (h : lastNotHyphen l = true) :
    dropTrail l = l := by
  rw [dropTrail, dropLead_id l.reverse h, List.reverse_reverse]

/-- `generateSlug` is the identity on well-formed slugs. -/
theorem generateSlug_id_on_slug (l : List Char) (h : isSlug l = true) :
    generateSlug l = l := by
  rw [isSlug, Bool.and_eq_true, Bool.and_eq_true, Bool.and_eq_true] at h
  obtain ⟨⟨⟨hA, hN⟩, hH⟩, hL⟩ := h
  rw [generateSlug, map_toLower_slug l hA,
    collapseAux_id l hA hN false (by simp), dropLead_id l hH, dropTrail_id l hL]

/-- C9: `generateSlug` produces only lowercase letters, digits and hyphens,
with no leading or trailing hyphen and no two consecutive hyphens, and is
consequently idempotent on its own output. -/
theorem generateSlug_spec (s : List Char) :
    isSlug (generateSlug s) = true ∧
      generateSlug (generateSlug s) = generateSlug s :=
  ⟨generateSlug_isSlug s,
    generateSlug_id_on_slug (generateSlug s) (generateSlug_isSlug s)⟩

/-- Every emitted reference is new: its URL is not among the seen ones. -/
theorem dedupAux_not_seen :
    ∀ (us : List (List Char)) (i : Nat) (seen : List (List Char)),
      ∀ r ∈ dedupAux us i seen, r.url ∉ seen := by
  intro us
  induction us with
  | nil => intro i seen r hr; simp [dedupAux] at hr
  | cons u t ih =>
    intro i seen r hr
    rw [dedupAux] at hr
    by_cases hu : u ∈ seen
    · rw [if_pos hu] at hr
      exact ih (i + 1) seen r hr
    · rw [if_neg hu] at hr
      rcases List.mem_cons.mp hr with rfl | hr
      · exact hu
      · intro hmem
        exact ih (i + 1) (u :: seen) r hr (List.mem_cons_of_mem u hmem)

/-- Every emitted URL comes from the input sequence. -/
theorem dedupAux_url_mem :
    ∀ (us : List (List Char)) (i : Nat) (seen : List (List Char)),
      ∀ r ∈ dedupAux us i seen, r.url ∈ us := by
  intro us
  induction us with
  | nil => intro i seen r hr; simp [dedupAux] at hr
  | cons u t ih =>
    intro i seen r hr
    rw [dedupAux] at hr
    by_cases hu : u ∈ seen
    · rw [if_pos hu] at hr
      exact List.mem_cons_of_mem u (ih (i + 1) seen r hr)
    · rw [if_neg hu] at hr
      rcases List.mem_cons.mp hr with rfl | hr
      · exact List.mem_cons_self u t
      · exact List.mem_cons_of_mem u (ih (i + 1) (u :: seen) r hr)

/-- The emitted URLs are pairwise distinct. -/
theorem dedupAux_nodup :
    ∀ (us : List (List Char)) (i : Nat) (seen : List (List Char)),
      ((dedupAux us i seen).map (fun r => r.url)).Nodup := by
  intro us
  induction us with
  | nil => intro i seen; simp [dedupAux]
  | cons u t ih =>
    intro i seen
    rw [dedupAux]
    by_cases hu : u ∈ seen
    · rw [if_pos hu]; exact ih (i + 1) seen
    · rw [if_neg hu]
      rw [List.map_cons, List.nodup_cons]
      refine ⟨?_, ih (i + 1) (u :: seen)⟩
      intro hmem
      rw [List.mem_map] at hmem
      obtain ⟨r, hr, hurl⟩ := hmem
      exact dedupAux_not_seen t (i + 1) (u :: seen) r hr
        (hurl ▸ List.mem_cons_self u seen)

/-- Every emitted ordinal is at least the running index. -/
theorem dedupAux_ordinal_ge :
    ∀ (us : List (List Char)) (i : Nat) (seen : List (List Char)),
      ∀ r ∈ dedupAux us i seen, i ≤ r.ordinal := by
  intro us
  induction us with
  | nil => intro i seen r hr; simp [dedupAux] at hr
  | cons u t ih =>
    intro i seen r hr
    rw [dedupAux] at hr
    by_cases hu : u ∈ seen
    · rw [if_pos hu] at hr
      exact Nat.le_of_succ_le (ih (i + 1) seen r hr)
    · rw [if_neg hu] at hr
      rcases List.mem_cons.mp hr with rfl | hr
      · exact Nat.le_refl i
      · exact Nat.le_of_succ_le (ih (i + 1) (u :: seen) r hr)

/-- The emitted ordinals are strictly increasing. -/
theorem dedupAux_chain :
    ∀ (us : List (List Char)) (i : Nat) (seen : List (List Char)),
      List.Chain' (fun a b => a.ordinal < b.ordinal) (dedupAux us i seen) := by
  intro us
  induction us with
  | nil => intro i seen; simp [dedupAux]
  | cons u t ih =>
    intro i seen
    rw [dedupAux]
    by_cases hu : u ∈ seen
    · rw [if_pos hu]; exact ih (i + 1) seen
    · rw [if_neg hu]
      rw [List.chain'_cons']
      refine ⟨?_, ih (i + 1) (u :: seen)⟩
      intro b hb
      have hmem : b ∈ dedupAux t (i + 1) (u :: seen) := by
        cases hd : dedupAux t (i + 1) (u :: seen) with
        | nil => rw [hd] at hb; simp at hb
        | cons x xs =>
          rw [hd] at hb
          simp only [List.head?_cons, Option.mem_def, Option.some.injEq] at hb
          rw [← hb]
          exact List.mem_cons_self x xs
      exact Nat.lt_of_lt_of_le (Nat.lt_succ_self i)
        (dedupAux_ordinal_ge t (i + 1) (u :: seen) b hmem)

/-- Each emitted ordinal is the first index of its URL in the remaining
input (shifted by the running index). -/
theorem dedupAux_firstIdx :
    ∀ (us : List (List Char)) (i : Nat) (seen : List (List Char)),
      ∀ r ∈ dedupAux us i seen, firstIdx us r.url + i = r.ordinal := by
  intro us
  induction us with
  | nil => intro i seen r hr; simp [dedupAux] at hr
  | cons u t ih =>
    intro i seen r hr
    rw [dedupAux] at hr
    by_cases hu : u ∈ seen
    · rw [if_pos hu] at hr
      have hne : ¬(u = r.url) := by
        intro he
        exact dedupAux_not_seen t (i + 1) seen r hr (he ▸ hu)
      rw [firstIdx, if_neg hne]
      have := ih (i + 1) seen r hr
      omega
    · rw [if_neg hu] at hr
      rcases List.mem_cons.mp hr with rfl | hr
      · rw [firstIdx, if_pos rfl]
        exact Nat.zero_add i
      · have hne : ¬(u = r.url) := by
          intro he
          exact dedupAux_not_seen t (i + 1) (u :: seen) r hr
            (he ▸ List.mem_cons_self u seen)
        rw [firstIdx, if_neg hne]
        have := ih (i + 1) (u :: seen) r hr
        omega

/-- Every not-yet-seen input URL is represented in the output. -/
theorem dedupAux_complete :
    ∀ (us : List (List Char)) (i : Nat) (seen : List (List Char)),
      ∀ u ∈ us, u ∉ seen → u ∈ (dedupAux us i seen).map (fun r => r.url) := by
  intro us
  induction us with
  | nil => intro i seen u hu _; simp at hu
  | cons v t ih =>
    intro i seen u hu hns
    rw [dedupAux]
    by_cases hv : v ∈ seen
    · rw [if_pos hv]
      rcases List.mem_cons.mp hu with rfl | hu
      · exact absurd hv hns
      · exact ih (i + 1) seen u hu hns
    · rw [if_neg hv]
      rw [List.map_cons]
      rcases List.mem_cons.mp hu with rfl | hu
      · exact List.mem_cons_self u _
      · by_cases huv : u = v
        · subst huv; exact List.mem_cons_self u _
        · refine List.mem_cons_of_mem _ (ih (i + 1) (v :: seen) u hu ?_)
          intro hm
          rcases List.mem_cons.mp hm with h | h
          · exact huv h
          · exact hns h

/-- The three-image scenario input of the specification. -/
def scenarioHtml : List Char :=
  ("<p>intro</p><img src=" ++ "\"a.jpg\"><img src=\"b.jpg\"" ++
    "><img src=\"a.jpg\">").toList

/-- Extraction invariants of C1 as one decidable check: deduplicated URLs,
strictly increasing ordinals, each ordinal the first index of its URL among
the valid sources, and completeness. -/
def c1check (html : List Char) : Bool :=
  decide (((extractImagesFromHTML html).map (fun r => r.url)).Nodup) &&
  decide (List.Chain' (fun a b => a.ordinal < b.ordinal)
    (extractImagesFromHTML html)) &&
  decide (∀ r ∈ extractImagesFromHTML html,
    firstIdx (validSrcs html) r.url = r.ordinal) &&
  decide (∀ u ∈ validSrcs html,
    u ∈ (extractImagesFromHTML html).map (fun r => r.url))

/-- C1: for every HTML input, extraction returns the image URLs in
first-occurrence order with no duplicates, with strictly increasing, unique
ordinals, each the ordinal of the URL's first occurrence; the three-image
scenario yields `a.jpg` at ordinal 0 and `b.jpg` at ordinal 1. -/
theorem extract_dedup_firstOccurrence (html : List Char) :
    c1check html = true ∧
      extractImagesFromHTML scenarioHtml =
        [{ url := "a.jpg".toList, ordinal := 0 },
         { url := "b.jpg".toList, ordinal := 1 }] := by
  refine ⟨?_, by decide⟩
  rw [c1check]
  have h1 := dedupAux_nodup (validSrcs html) 0 []
  have h2 := dedupAux_chain (validSrcs html) 0 []
  have h3 : ∀ r ∈ extractImagesFromHTML html,
      firstIdx (validSrcs html) r.url = r.ordinal := by
    intro r hr
    have := dedupAux_firstIdx (validSrcs html) 0 [] r hr
    omega
  have h4 : ∀ u ∈ validSrcs html,
      u ∈ (extractImagesFromHTML html).map (fun r => r.url) := by
    intro u hu
    exact dedupAux_complete (validSrcs html) 0 [] u hu (by simp)
  rw [extractImagesFromHTML]
  simp only [Bool.and_eq_true, decide_eq_true_eq]
  exact ⟨⟨⟨h1, h2⟩, fun r hr => h3 r hr⟩, fun u hu => h4 u hu⟩

/-- C7: extraction is total by construction and never fails; no returned
reference has an empty URL (absent or empty `src` is skipped silently), and
it handles self-closing tags, unclosed tags, arbitrary attribute order and
quoting, query strings, and malformed markup, best-effort. -/
theorem extract_total_bestEffort (html : List Char) :
    (extractImagesFromHTML html).all (fun r => !r.url.isEmpty) = true ∧
      extractImagesFromHTML ("<img src=".toList ++ sqc :: "x.jpg".toList ++
          sqc :: "/>".toList) =
        [{ url := "x.jpg".toList, ordinal := 0 }] ∧
      extractImagesFromHTML "<img alt=hi src=x.jpg>".toList =
        [{ url := "x.jpg".toList, ordinal := 0 }] ∧
      extractImagesFromHTML "<p><img src=q.png".toList =
        [{ url := "q.png".toList, ordinal := 0 }] ∧
      extractImagesFromHTML "<img src=\"a.jpg?v=1\">".toList =
        [{ url := "a.jpg?v=1".toList, ordinal := 0 }] ∧
      extractImagesFromHTML "<img><img src=\"\">".toList = [] ∧
      extractImagesFromHTML "<x <img src=\"a.jpg\">>junk<img".toList =
        [{ url := "a.jpg".toList, ordinal := 0 }] := by
  refine ⟨?_, by decide, by decide, by decide, by decide, by decide, by decide⟩
  rw [List.all_eq_true]
  intro r hr
  have hmem : r.url ∈ validSrcs html :=
    dedupAux_url_mem (validSrcs html) 0 [] r hr
  rw [validSrcs, List.mem_filter] at hmem
  simpa using hmem.2

/-- `takeWhile` over an append whose first part fully satisfies the
predicate. -/
theorem takeWhile_append_all (p : Char → Bool) (u v : List Char)
    (h : ∀ c ∈ u, p c = true) :
    (u ++ v).takeWhile p = u ++ v.takeWhile p := by
  induction u with
  | nil => rfl
  | cons c t ih =>
    rw [List.cons_append, List.takeWhile_cons,
      if_pos (h c (List.mem_cons_self c t)), ih (fun x hx => h x
        (List.mem_cons_of_mem c hx)), List.cons_append]

/-- Characters of a `takeWhile` are characters of the list. -/
theorem mem_of_mem_takeWhile {a : Char} {p : Char → Bool} {l : List Char}
    (h : a ∈ l.takeWhile p) : a ∈ l :=
  (List.takeWhile_sublist p).subset h

/-- Characters of a parsed attribute value come from the parsed input. -/
theorem parseVal_fst_mem (l : List Char) :
    ∀ a ∈ (parseVal l).1, a ∈ l := by
  cases l with
  | nil => intro a ha; simp [parseVal] at ha
  | cons d r =>
    intro a ha
    rw [parseVal] at ha
    split at ha
    · exact List.mem_cons_of_mem d (mem_of_mem_takeWhile ha)
    · exact mem_of_mem_takeWhile ha

/-- Parsed attribute values contain no quote characters. -/
theorem parseVal_fst_noQuote (l : List Char) :
    ∀ a ∈ (parseVal l).1, ¬(a = dq) ∧ ¬(a = sqc) := by
  cases l with
  | nil => intro a ha; simp [parseVal] at ha
  | cons d r =>
    intro a ha
    rw [parseVal] at ha
    split at ha
    · have := List.mem_takeWhile_imp ha
      constructor <;> intro he <;> subst he <;> exact absurd this (by decide)
    · have := List.mem_takeWhile_imp ha
      constructor <;> intro he <;> subst he <;> exact absurd this (by decide)

/-- The unconsumed remainder of a value parse comes from the parsed
input. -/
theorem parseVal_snd_mem (l : List Char) :
    ∀ a ∈ (parseVal l).2, a ∈ l := by
  cases l with
  | nil => intro a ha; simp [parseVal] at ha
  | cons d r =>
    intro a ha
    rw [parseVal] at ha
    split at ha
    · exact List.mem_cons_of_mem d (List.mem_of_mem_drop (List.mem_of_mem_drop ha))
    · exact List.mem_of_mem_drop ha

/-- Characters of a found attribute value come from the scanned tag body. -/
theorem findAttr_mem :
    ∀ (fuel : Nat) (name cs v : List Char), findAttr fuel name cs = some v →
      ∀ a ∈ v, a ∈ cs := by
  intro fuel
  induction fuel with
  | zero => intro name cs v h; simp [findAttr] at h
  | succ f ih =>
    intro name cs v h a ha
    cases cs with
    | nil => simp [findAttr] at h
    | cons c t =>
      rw [findAttr] at h
      split at h
      · exact List.mem_cons_of_mem c (ih name t v h a ha)
      · split at h
        next r2 heq =>
          split at h
          · obtain rfl : (parseVal r2).1 = v := by injection h
            have h1 : a ∈ r2 := parseVal_fst_mem r2 a ha
            have h2 : a ∈ (c :: t).drop ((c :: t).takeWhile attrNameChar).length := by
              rw [heq]; exact List.mem_cons_of_mem _ h1
            exact List.mem_of_mem_drop h2
          · have h1 : a ∈ (parseVal r2).2 := ih name (parseVal r2).2 v h a ha
            have h2 : a ∈ r2 := parseVal_snd_mem r2 a h1
            have h3 : a ∈ (c :: t).drop ((c :: t).takeWhile attrNameChar).length := by
              rw [heq]; exact List.mem_cons_of_mem _ h2
            exact List.mem_of_mem_drop h3
        next heq =>
          split at h
          · obtain rfl : ([] : List Char) = v := by injection h
            simp at ha
          · simp at h
        next d r2 hne heq =>
          split at h
          · obtain rfl : ([] : List Char) = v := by injection h
            simp at ha
          · have h1 : a ∈ d :: r2 := List.mem_cons_of_mem d (ih name r2 v h a ha)
            have h2 : a ∈ (c :: t).drop ((c :: t).takeWhile attrNameChar).length := by
              rw [heq]; exact h1
            exact List.mem_of_mem_drop h2

/-- Found attribute values contain no quote characters. -/
theorem findAttr_noQuote :
    ∀ (fuel : Nat) (name cs v : List Char), findAttr fuel name cs = some v →
      ∀ a ∈ v, ¬(a = dq) ∧ ¬(a = sqc) := by
  intro fuel
  induction fuel with
  | zero => intro name cs v h; simp [findAttr] at h
  | succ f ih =>
    intro name cs v h a ha
    cases cs with
    | nil => simp [findAttr] at h
    | cons c t =>
      rw [findAttr] at h
      split at h
      · exact ih name t v h a ha
      · split at h
        next r2 heq =>
          split at h
          · obtain rfl : (parseVal r2).1 = v := by injection h
            exact parseVal_fst_noQuote r2 a ha
          · exact ih name (parseVal r2).2 v h a ha
        next heq =>
          split at h
          · obtain rfl : ([] : List Char) = v := by injection h
            simp at ha
          · simp at h
        next d r2 hne heq =>
          split at h
          · obtain rfl : ([] : List Char) = v := by injection h
            simp at ha
          · exact ih name r2 v h a ha

/-- A successful attribute search also succeeds with more fuel. -/
theorem findAttr_mono :
    ∀ (f1 : Nat) (name cs v : List Char), findAttr f1 name cs = some v →
      ∀ f2, f1 ≤ f2 → findAttr f2 name cs = some v := by
  intro f1
  induction f1 with
  | zero => intro name cs v h; simp [findAttr] at h
  | succ f ih =>
    intro name cs v h f2 hle
    obtain ⟨g, rfl⟩ : ∃ g, f2 = g + 1 := ⟨f2 - 1, by omega⟩
    cases cs with
    | nil => simp [findAttr] at h
    | cons c t =>
      rw [findAttr] at h
      rw [findAttr]
      split at h
      next hskip => rw [if_pos hskip]; exact ih name t v h g (by omega)
      next hskip =>
        rw [if_neg hskip]
        split at h
        next r2 heq =>
          split at h
          next hname => rw [if_pos hname]; exact h
          next hname =>
            rw [if_neg hname]
            exact ih name (parseVal r2).2 v h g (by omega)
        next heq => exact h
        next d r2 hne heq =>
          split at h
          next hname => rw [if_pos hname]; exact h
          next hname => rw [if_neg hname]; exact ih name r2 v h g (by omega)

/-- The remainder after an image tag is no longer than the scanned list. -/
theorem tagRest_length_le (cs : List Char) : (tagRest cs).length ≤ cs.length := by
  simp only [tagRest, List.length_drop]
  omega

/-- Rewriting does not depend on the fuel once it exceeds the input
length. -/
theorem rewriteAux_fuel :
    ∀ (f1 : Nat) (l : List Char) (f2 : Nat), l.length < f1 → l.length < f2 →
      rewriteAux f1 l = rewriteAux f2 l := by
  intro f1
  induction f1 with
  | zero => intro l f2 h1 _; exact absurd h1 (Nat.not_lt_zero _)
  | succ f ih =>
    intro l f2 h1 h2
    obtain ⟨g, rfl⟩ : ∃ g, f2 = g + 1 := ⟨f2 - 1, by omega⟩
    cases l with
    | nil => rfl
    | cons c cs =>
      rw [List.length_cons] at h1 h2
      rw [rewriteAux, rewriteAux]
      by_cases himg : isImgOpen (c :: cs) = true
      · rw [if_pos himg, if_pos himg]
        have hr : (tagRest cs).length < f :=
          Nat.lt_of_le_of_lt (tagRest_length_le cs) (by omega)
        have hg : (tagRest cs).length < g :=
          Nat.lt_of_le_of_lt (tagRest_length_le cs) (by omega)
        rw [ih (tagRest cs) g hr hg]
      · rw [if_neg himg, if_neg himg, ih cs g (by omega) (by omega)]

/-- Scanning does not depend on the fuel once it exceeds the input
length. -/
theorem imgScan_fuel :
    ∀ (f1 : Nat) (l : List Char) (f2 : Nat), l.length < f1 → l.length < f2 →
      imgScan f1 l = imgScan f2 l := by
  intro f1
  induction f1 with
  | zero => intro l f2 h1 _; exact absurd h1 (Nat.not_lt_zero _)
  | succ f ih =>
    intro l f2 h1 h2
    obtain ⟨g, rfl⟩ : ∃ g, f2 = g + 1 := ⟨f2 - 1, by omega⟩
    cases l with
    | nil => rfl
    | cons c cs =>
      rw [List.length_cons] at h1 h2
      rw [imgScan, imgScan]
      by_cases himg : isImgOpen (c :: cs) = true
      · rw [if_pos himg, if_pos himg]
        have hr : (tagRest cs).length < f :=
          Nat.lt_of_le_of_lt (tagRest_length_le cs) (by omega)
        have hg : (tagRest cs).length < g :=
          Nat.lt_of_le_of_lt (tagRest_length_le cs) (by omega)
        rw [ih (tagRest cs) g hr hg]
      · rw [if_neg himg, if_neg himg, ih cs g (by omega) (by omega)]

/-- Unfolding: rewriting the empty string. -/
theorem rewrite_nil : addLazyLoadingToImages [] = [] := rfl

/-- Unfolding: rewriting a string that does not open an image tag. -/
theorem rewrite_plain (c : Char) (cs : List Char)
    (h : isImgOpen (c :: cs) = false) :
    addLazyLoadingToImages (c :: cs) = c :: addLazyLoadingToImages cs := by
  rw [addLazyLoadingToImages, addLazyLoadingToImages, List.length_cons]
  rw [rewriteAux, if_neg (by simp [h])]

/-- Unfolding: rewriting at an image tag already carrying the marker. -/
theorem rewrite_marked (c : Char) (cs : List Char)
    (h : isImgOpen (c :: cs) = true)
    (hm : hasInfix (tagContent cs) markerName = true) :
    addLazyLoadingToImages (c :: cs) =
      '<' :: 'i' :: 'm' :: 'g' :: tagContent cs ++
        (if tagClosed cs then
          '>' :: addLazyLoadingToImages (tagRest cs)
        else addLazyLoadingToImages (tagRest cs)) := by
  rw [addLazyLoadingToImages, List.length_cons, rewriteAux, if_pos h, if_pos hm]
  rw [addLazyLoadingToImages,
    rewriteAux_fuel (cs.length + 1) (tagRest cs) ((tagRest cs).length + 1)
      (Nat.lt_succ_of_le (tagRest_length_le cs)) (Nat.lt_succ_self _)]

/-- Unfolding: rewriting at an unmarked image tag. -/
theorem rewrite_unmarked (c : Char) (cs : List Char)
    (h : isImgOpen (c :: cs) = true)
    (hm : hasInfix (tagContent cs) markerName = false) :
    addLazyLoadingToImages (c :: cs) =
      mkLazyTag (srcOrEmpty (tagContent cs)) ++
        addLazyLoadingToImages (tagRest cs) := by
  rw [addLazyLoadingToImages, List.length_cons, rewriteAux, if_pos h,
    if_neg (by simp [hm])]
  rw [addLazyLoadingToImages,
    rewriteAux_fuel (cs.length + 1) (tagRest cs) ((tagRest cs).length + 1)
      (Nat.lt_succ_of_le (tagRest_length_le cs)) (Nat.lt_succ_self _)]

/-- Unfolding: scanning the empty string. -/
theorem scan_nil : imgContents [] = [] := rfl

/-- Unfolding: scanning a string that does not open an image tag. -/
theorem scan_plain (c : Char) (cs : List Char)
    (h : isImgOpen (c :: cs) = false) :
    imgContents (c :: cs) = imgContents cs := by
  rw [imgContents, imgContents, List.length_cons, imgScan,
    if_neg (by simp [h])]

/-- Unfolding: scanning at an image tag. -/
theorem scan_img (c : Char) (cs : List Char) (h : isImgOpen (c :: cs) = true) :
    imgContents (c :: cs) = tagContent cs :: imgContents (tagRest cs) := by
  rw [imgContents, List.length_cons, imgScan, if_pos h]
  rw [imgContents,
    imgScan_fuel (cs.length + 1) (tagRest cs) ((tagRest cs).length + 1)
      (Nat.lt_succ_of_le (tagRest_length_le cs)) (Nat.lt_succ_self _)]

/-- Rewriting the empty string with any fuel. -/
theorem rewriteAux_nil : ∀ f : Nat, rewriteAux f [] = [] := by
  intro f; cases f <;> rfl

/-- An open image tag starts with `<`. -/
theorem isImgOpen_head (c : Char) (cs : List Char)
    (h : isImgOpen (c :: cs) = true) : c = '<' := by
  rw [isImgOpen, Bool.and_eq_true] at h
  have h1 := h.1
  rw [List.isPrefixOf_iff_prefix] at h1
  obtain ⟨t, ht⟩ := h1
  rw [imgLit] at ht
  have : '<' :: ('i' :: 'm' :: 'g' :: t) = c :: cs := ht
  injection this with h2 _
  exact h2.symm

/-- A list not starting with `<` opens no image tag. -/
theorem isImgOpen_head_ne (c : Char) (X : List Char) (h : ¬c = '<') :
    isImgOpen (c :: X) = false := by
  rw [isImgOpen]
  have h1 : imgLit.isPrefixOf (c :: X) = false := by
    show (('<' == c) && _) = false
    have : ('<' == c) = false := by
      simp only [beq_eq_false_iff_ne, ne_eq]
      exact fun hh => h hh.symm
    rw [this, Bool.false_and]
  rw [h1, Bool.false_and]

/-- A second character other than `i` opens no image tag. -/
theorem isImgOpen_not_i (a : Char) (X : List Char) (h : ¬a = 'i') :
    isImgOpen ('<' :: a :: X) = false := by
  rw [isImgOpen]
  have h1 : imgLit.isPrefixOf ('<' :: a :: X) = false := by
    show (('<' == '<') && (('i' == a) && _)) = false
    have : ('i' == a) = false := by
      simp only [beq_eq_false_iff_ne, ne_eq]
      exact fun hh => h hh.symm
    rw [this, Bool.false_and, Bool.and_false]
  rw [h1, Bool.false_and]

/-- A third character other than `m` opens no image tag. -/
theorem isImgOpen_not_m (b : Char) (X : List Char) (h : ¬b = 'm') :
    isImgOpen ('<' :: 'i' :: b :: X) = false := by
  rw [isImgOpen]
  have h1 : imgLit.isPrefixOf ('<' :: 'i' :: b :: X) = false := by
    show (('<' == '<') && (('i' == 'i') && (('m' == b) && _))) = false
    have : ('m' == b) = false := by
      simp only [beq_eq_false_iff_ne, ne_eq]
      exact fun hh => h hh.symm
    rw [this, Bool.false_and, Bool.and_false, Bool.and_false]
  rw [h1, Bool.false_and]

/-- A fourth character other than `g` opens no image tag. -/
theorem isImgOpen_not_g (b : Char) (X : List Char) (h : ¬b = 'g') :
    isImgOpen ('<' :: 'i' :: 'm' :: b :: X) = false := by
  rw [isImgOpen]
  have h1 : imgLit.isPrefixOf ('<' :: 'i' :: 'm' :: b :: X) = false := by
    show (('<' == '<') && (('i' == 'i') && (('m' == 'm') && (('g' == b) && _)))) = false
    have : ('g' == b) = false := by
      simp only [beq_eq_false_iff_ne, ne_eq]
      exact fun hh => h hh.symm
    rw [this, Bool.false_and, Bool.and_false, Bool.and_false, Bool.and_false]
  rw [h1, Bool.false_and]

/-- A full `<img` prefix opens an image tag exactly when a delimiter
follows. -/
theorem isImgOpen_full (X : List Char) :
    isImgOpen ('<' :: 'i' :: 'm' :: 'g' :: X) = headDelim X := by
  rw [isImgOpen]
  have h1 : imgLit.isPrefixOf ('<' :: 'i' :: 'm' :: 'g' :: X) = true := by
    show (('<' == '<') && (('i' == 'i') && (('m' == 'm') && (('g' == 'g') &&
      (([] : List Char).isPrefixOf X))))) = true
    simp [List.isPrefixOf]
  rw [h1, Bool.true_and]
  rfl

/-- Rewriting preserves the first character. -/
theorem rewriteAux_head? : ∀ (f : Nat) (l : List Char),
    (rewriteAux f l).head? = l.head? := by
  intro f l
  cases f with
  | zero => rfl
  | succ f0 =>
    cases l with
    | nil => rfl
    | cons c cs =>
      rw [rewriteAux]
      by_cases himg : isImgOpen (c :: cs) = true
      · rw [if_pos himg, isImgOpen_head c cs himg]
        by_cases hm : hasInfix (tagContent cs) markerName = true
        · rw [if_pos hm]; rfl
        · rw [if_neg hm]; rfl
      · rw [if_neg himg]; rfl

/-- Rewriting preserves the shape of a cons. -/
theorem rewriteAux_cons_shape (f : Nat) (a : Char) (cs : List Char) :
    ∃ tl, rewriteAux f (a :: cs) = a :: tl := by
  have h := rewriteAux_head? f (a :: cs)
  cases hr : rewriteAux f (a :: cs) with
  | nil => rw [hr] at h; simp at h
  | cons x tl =>
    rw [hr] at h
    simp only [List.head?_cons] at h
    injection h with h2
    exact ⟨tl, by rw [h2]⟩

/-- `headDelim` only depends on the first character. -/
theorem headDelim_congr (l1 l2 : List Char) (h : l1.head? = l2.head?) :
    headDelim l1 = headDelim l2 := by
  cases l1 <;> cases l2 <;> simp_all [headDelim]

/-- Rewriting preserves the head delimiter status. -/
theorem rewriteAux_headDelim (f : Nat) (l : List Char) :
    headDelim (rewriteAux f l) = headDelim l :=
  headDelim_congr _ _ (rewriteAux_head? f l)

/-- Rewriting at a non-tag position copies the character and continues
(with whatever fuel remains). -/
theorem rewriteAux_cons_plain (f : Nat) (c : Char) (cs : List Char)
    (h : isImgOpen (c :: cs) = false) :
    ∃ f2, rewriteAux f (c :: cs) = c :: rewriteAux f2 cs := by
  cases f with
  | zero => exact ⟨0, rfl⟩
  | succ f0 => exact ⟨f0, by rw [rewriteAux, if_neg (by simp [h])]⟩

/-- Rewriting a string starting with the three tag-name letters copies them
and continues (with whatever fuel remains). -/
theorem rewriteAux_img_tail (f : Nat) (rest0 : List Char) :
    ∃ f2, rewriteAux f ('i' :: 'm' :: 'g' :: rest0) =
      'i' :: 'm' :: 'g' :: rewriteAux f2 rest0 := by
  obtain ⟨f1, h1⟩ := rewriteAux_cons_plain f 'i' ('m' :: 'g' :: rest0)
    (isImgOpen_head_ne 'i' _ (by decide))
  obtain ⟨f2, h2⟩ := rewriteAux_cons_plain f1 'm' ('g' :: rest0)
    (isImgOpen_head_ne 'm' _ (by decide))
  obtain ⟨f3, h3⟩ := rewriteAux_cons_plain f2 'g' rest0
    (isImgOpen_head_ne 'g' _ (by decide))
  exact ⟨f3, by rw [h1, h2, h3]⟩

/-- Key stability property: whether a position opens an image tag is
unchanged by rewriting the remainder of the string. -/
theorem isImgOpen_cons_rewrite (f : Nat) (c : Char) (cs : List Char) :
    isImgOpen (c :: rewriteAux f cs) = isImgOpen (c :: cs) := by
  by_cases hc : c = '<'
  · subst hc
    cases cs with
    | nil => rw [rewriteAux_nil]
    | cons a cs1 =>
      by_cases ha : a = 'i'
      · subst ha
        obtain ⟨f1, h1⟩ := rewriteAux_cons_plain f 'i' cs1
          (isImgOpen_head_ne 'i' _ (by decide))
        rw [h1]
        cases cs1 with
        | nil =>
          rw [rewriteAux_nil]
        | cons b cs2 =>
          by_cases hb : b = 'm'
          · subst hb
            obtain ⟨f2, h2⟩ := rewriteAux_cons_plain f1 'm' cs2
              (isImgOpen_head_ne 'm' _ (by decide))
            rw [h2]
            cases cs2 with
            | nil =>
              rw [rewriteAux_nil]
            | cons g cs3 =>
              by_cases hg : g = 'g'
              · subst hg
                obtain ⟨f3, h3⟩ := rewriteAux_cons_plain f2 'g' cs3
                  (isImgOpen_head_ne 'g' _ (by decide))
                rw [h3, isImgOpen_full, isImgOpen_full, rewriteAux_headDelim]
              · obtain ⟨tl, htl⟩ := rewriteAux_cons_shape f2 g cs3
                rw [htl, isImgOpen_not_g g _ hg, isImgOpen_not_g g _ hg]
          · obtain ⟨tl, htl⟩ := rewriteAux_cons_shape f1 b cs2
            rw [htl, isImgOpen_not_m b _ hb, isImgOpen_not_m b _ hb]
      · obtain ⟨tl, htl⟩ := rewriteAux_cons_shape f a cs1
        rw [htl, isImgOpen_not_i a _ ha, isImgOpen_not_i a _ ha]
  · rw [isImgOpen_head_ne c _ hc, isImgOpen_head_ne c _ hc]

/-- A tag body contains no closing bracket. -/
theorem tagContent_not_gt (cs : List Char) :
    ∀ a ∈ tagContent cs, (!(a = '>')) = true := by
  intro a ha
  rw [tagContent] at ha
  exact List.mem_takeWhile_imp (p := fun d => !(d = '>')) ha

/-- `takeWhile` stops exactly at the closing bracket after a bracket-free
prefix. -/
theorem takeWhile_gt_append (A R : List Char)
    (h : ∀ a ∈ A, (!(a = '>')) = true) :
    (A ++ '>' :: R).takeWhile (fun d => !(d = '>')) = A := by
  rw [takeWhile_append_all _ A _ h, List.takeWhile_cons]
  simp

/-- Dropping the bracket-free prefix plus the bracket itself. -/
theorem drop_after_tag (A R : List Char) :
    (A ++ '>' :: R).drop (A.length + 1) = R := by
  rw [← List.drop_drop 1 A.length, List.drop_left]
  rfl

/-- An unclosed image tag consumes the whole remaining input. -/
theorem unclosed_tag (cs : List Char) (h : tagClosed cs = false) :
    tagContent cs = cs.drop 3 ∧ tagRest cs = [] := by
  rw [tagClosed] at h
  have hle : (cs.drop 3).length ≤ (tagContent cs).length := by
    simpa using h
  have heq : tagContent cs = cs.drop 3 := by
    rw [tagContent]
    refine List.IsPrefix.eq_of_length (List.takeWhile_prefix _) ?_
    have h2 : (List.takeWhile (fun d => !(d = '>'))
        (cs.drop 3)).length ≤ (cs.drop 3).length :=
      (List.takeWhile_prefix _).length_le
    rw [tagContent] at hle
    omega
  refine ⟨heq, ?_⟩
  rw [tagRest, List.drop_eq_nil_of_le]
  rw [heq]
  omega

/-- A closed image tag splits the remaining input into body, bracket and
rest. -/
theorem closed_tag (cs : List Char) (h : tagClosed cs = true) :
    cs.drop 3 = tagContent cs ++ '>' :: tagRest cs := by
  have hsplit := List.takeWhile_append_dropWhile
    (fun d => !(d = '>')) (cs.drop 3)
  cases hdw : (cs.drop 3).dropWhile (fun d => !(d = '>')) with
  | nil =>
    exfalso
    rw [tagClosed] at h
    rw [hdw] at hsplit
    rw [List.append_nil] at hsplit
    rw [tagContent] at h
    rw [hsplit] at h
    simp at h
  | cons d rest =>
    have hd : d = '>' := by
      have := List.head?_dropWhile_not (fun d => !(d = '>')) (cs.drop 3)
      rw [hdw] at this
      simpa using this
    subst hd
    have hrest : tagRest cs = rest := by
      rw [tagRest, tagContent]
      nth_rewrite 2 [← hsplit]
      rw [hdw]
      exact drop_after_tag _ rest
    rw [hrest, tagContent, ← hdw]
    exact hsplit.symm

/-- `takeWhile` keeps a list all of whose elements satisfy the predicate. -/
theorem takeWhile_all (p : Char → Bool) (A : List Char)
    (h : ∀ a ∈ A, p a = true) : A.takeWhile p = A := by
  have := takeWhile_append_all p A [] h
  simpa using this

/-- A pattern is a prefix of itself followed by anything. -/
theorem isPrefixOf_append_self : ∀ (pat B : List Char),
    pat.isPrefixOf (pat ++ B) = true := by
  intro pat
  induction pat with
  | nil => intro B; simp [List.isPrefixOf]
  | cons p t ih =>
    intro B
    show ((p == p) && t.isPrefixOf (t ++ B)) = true
    rw [ih B, beq_self_eq_true, Bool.and_true]

/-- The empty pattern is an infix of anything. -/
theorem hasInfix_nil (l : List Char) : hasInfix l [] = true := by
  cases l <;> rfl

/-- A pattern embedded in a concatenation is an infix. -/
theorem hasInfix_of_append : ∀ (A pat B : List Char),
    hasInfix (A ++ (pat ++ B)) pat = true := by
  intro A
  induction A with
  | nil =>
    intro pat B
    cases pat with
    | nil => exact hasInfix_nil B
    | cons p t =>
      show (((p :: t).isPrefixOf ((p :: t) ++ B)) || _) = true
      rw [isPrefixOf_append_self, Bool.true_or]
  | cons a A' ih =>
    intro pat B
    show ((pat.isPrefixOf _) || hasInfix (A' ++ (pat ++ B)) pat) = true
    rw [ih pat B, Bool.or_true]

/-- The rewritten tag body carries the deferred-source marker. -/
theorem hasInfix_lazyInner (u : List Char) :
    hasInfix (lazyInner u) markerName = true := by
  rw [lazyInner]
  exact hasInfix_of_append lazyPre markerName _

/-- The rewritten tag body contains no closing bracket when the embedded URL
contains none. -/
theorem lazyInner_not_gt (u : List Char)
    (h : ∀ a ∈ u, (!(a = '>')) = true) :
    ∀ a ∈ lazyInner u, (!(a = '>')) = true := by
  intro a ha
  rw [lazyInner] at ha
  have hpre : lazyPre.all (fun d => !(d = '>')) = true := by decide
  have hmk : markerName.all (fun d => !(d = '>')) = true := by decide
  have hsuf : lazySuf.all (fun d => !(d = '>')) = true := by decide
  rcases List.mem_append.mp ha with h1 | h1
  · rcases List.mem_append.mp h1 with h2 | h2
    · exact List.all_eq_true.mp hpre a h2
    · exact List.all_eq_true.mp hmk a h2
  rcases List.mem_cons.mp h1 with rfl | h3
  · decide
  rcases List.mem_cons.mp h3 with rfl | h4
  · decide
  rcases List.mem_append.mp h4 with h5 | h5
  · exact h a h5
  rcases List.mem_cons.mp h5 with rfl | h6
  · decide
  · exact List.all_eq_true.mp hsuf a h6

/-- Extracted source URLs contain no closing bracket. -/
theorem srcOrEmpty_not_gt (cs : List Char) :
    ∀ a ∈ srcOrEmpty (tagContent cs), (!(a = '>')) = true := by
  intro a ha
  rw [srcOrEmpty] at ha
  cases hv : attrValOf srcName (tagContent cs) with
  | none => rw [hv] at ha; simp at ha
  | some v =>
    rw [hv] at ha
    simp only [Option.getD_some] at ha
    have := findAttr_mem _ srcName (tagContent cs) v hv a ha
    exact tagContent_not_gt cs a this

/-- Pass 2 over an emitted, closed, marker-carrying tag copies it and
continues after it. -/
theorem rewrite_emitted_tag (A R : List Char)
    (hgt : ∀ a ∈ A, (!(a = '>')) = true)
    (hdel : headDelim (A ++ '>' :: R) = true)
    (hm : hasInfix A markerName = true) :
    addLazyLoadingToImages ('<' :: 'i' :: 'm' :: 'g' :: (A ++ '>' :: R)) =
      '<' :: 'i' :: 'm' :: 'g' :: (A ++ '>' :: addLazyLoadingToImages R) := by
  have himg : isImgOpen ('<' :: 'i' :: 'm' :: 'g' :: (A ++ '>' :: R)) = true := by
    rw [isImgOpen_full]; exact hdel
  have hcont : tagContent ('i' :: 'm' :: 'g' :: (A ++ '>' :: R)) = A := by
    rw [tagContent]
    exact takeWhile_gt_append A R hgt
  have hclosed : tagClosed ('i' :: 'm' :: 'g' :: (A ++ '>' :: R)) = true := by
    rw [tagClosed, hcont]
    simp only [List.drop_succ_cons, List.drop_zero]
    simp only [List.drop_succ_cons, List.drop_zero, decide_eq_true_eq,
      List.length_append, List.length_cons]
    omega
  have hrest : tagRest ('i' :: 'm' :: 'g' :: (A ++ '>' :: R)) = R := by
    rw [tagRest, hcont]
    exact drop_after_tag A R
  rw [rewrite_marked '<' _ himg (by rw [hcont]; exact hm), hcont, hclosed,
    hrest]
  simp [List.cons_append]

/-- Pass 2 over an emitted, unclosed, marker-carrying tag copies it. -/
theorem rewrite_emitted_unclosed (A : List Char)
    (hgt : ∀ a ∈ A, (!(a = '>')) = true)
    (hdel : headDelim A = true)
    (hm : hasInfix A markerName = true) :
    addLazyLoadingToImages ('<' :: 'i' :: 'm' :: 'g' :: A) =
      '<' :: 'i' :: 'm' :: 'g' :: A := by
  have himg : isImgOpen ('<' :: 'i' :: 'm' :: 'g' :: A) = true := by
    rw [isImgOpen_full]; exact hdel
  have hcont : tagContent ('i' :: 'm' :: 'g' :: A) = A := by
    rw [tagContent]
    exact takeWhile_all _ A hgt
  have hclosed : tagClosed ('i' :: 'm' :: 'g' :: A) = false := by
    rw [tagClosed, hcont]
    simp only [List.drop_succ_cons, List.drop_zero]
    simp
  have hrest : tagRest ('i' :: 'm' :: 'g' :: A) = [] := by
    rw [tagRest, hcont]
    exact List.drop_eq_nil_of_le
      (by simp only [List.drop_succ_cons, List.drop_zero]; omega)
  rw [rewrite_marked '<' _ himg (by rw [hcont]; exact hm), hcont, hclosed,
    hrest, rewrite_nil]
  simp

/-- Pass 2 of the scanner over an emitted, closed tag returns its body and
continues after it. -/
theorem scan_emitted_tag (A R : List Char)
    (hgt : ∀ a ∈ A, (!(a = '>')) = true)
    (hdel : headDelim (A ++ '>' :: R) = true) :
    imgContents ('<' :: 'i' :: 'm' :: 'g' :: (A ++ '>' :: R)) =
      A :: imgContents R := by
  have himg : isImgOpen ('<' :: 'i' :: 'm' :: 'g' :: (A ++ '>' :: R)) = true := by
    rw [isImgOpen_full]; exact hdel
  have hcont : tagContent ('i' :: 'm' :: 'g' :: (A ++ '>' :: R)) = A := by
    rw [tagContent]
    exact takeWhile_gt_append A R hgt
  have hrest : tagRest ('i' :: 'm' :: 'g' :: (A ++ '>' :: R)) = R := by
    rw [tagRest, hcont]
    exact drop_after_tag A R
  rw [scan_img '<' _ himg, hcont, hrest]

/-- Pass 2 of the scanner over an emitted, unclosed tag returns its body. -/
theorem scan_emitted_unclosed (A : List Char)
    (hgt : ∀ a ∈ A, (!(a = '>')) = true)
    (hdel : headDelim A = true) :
    imgContents ('<' :: 'i' :: 'm' :: 'g' :: A) = [A] := by
  have himg : isImgOpen ('<' :: 'i' :: 'm' :: 'g' :: A) = true := by
    rw [isImgOpen_full]; exact hdel
  have hcont : tagContent ('i' :: 'm' :: 'g' :: A) = A := by
    rw [tagContent]
    exact takeWhile_all _ A hgt
  have hrest : tagRest ('i' :: 'm' :: 'g' :: A) = [] := by
    rw [tagRest, hcont]
    exact List.drop_eq_nil_of_le
      (by simp only [List.drop_succ_cons, List.drop_zero]; omega)
  rw [scan_img '<' _ himg, hcont, hrest, scan_nil]

/-- An open image tag is followed by a delimiter. -/
theorem isImgOpen_delim (c : Char) (cs : List Char)
    (h : isImgOpen (c :: cs) = true) : headDelim (cs.drop 3) = true := by
  rw [isImgOpen, Bool.and_eq_true] at h
  exact h.2

/-- The tag body inherits the delimiter status of the tag head. -/
theorem content_headDelim (cs R' : List Char)
    (h : headDelim (cs.drop 3) = true) (h2 : headDelim R' = true) :
    headDelim (tagContent cs ++ R') = true := by
  cases hA : tagContent cs with
  | nil => simpa using h2
  | cons c0 t0 =>
    have hpre : (c0 :: t0) <+: cs.drop 3 := by
      rw [← hA, tagContent]
      exact List.takeWhile_prefix _
    obtain ⟨s, hs⟩ := hpre
    rw [← hs] at h
    rw [List.cons_append]
    rw [List.cons_append] at h
    exact h

/-- The closing bracket is a delimiter. -/
theorem headDelim_gt (R : List Char) : headDelim ('>' :: R) = true := by
  rw [headDelim]
  decide

/-- C2: the Lazy Markup Rewriter is idempotent — rewriting already-rewritten
markup is a no-op because every emitted tag carries the deferred-source
marker and is detected and skipped. -/
theorem rewrite_idempotent (html : List Char) :
    addLazyLoadingToImages (addLazyLoadingToImages html) =
      addLazyLoadingToImages html := by
  suffices h : ∀ (n : Nat) (l : List Char), l.length ≤ n →
      addLazyLoadingToImages (addLazyLoadingToImages l) =
        addLazyLoadingToImages l from h html.length html (Nat.le_refl _)
  intro n
  induction n with
  | zero =>
    intro l hl
    rw [List.length_eq_zero.mp (Nat.le_zero.mp hl)]
    rfl
  | succ n ih =>
    intro l hl
    cases l with
    | nil => rfl
    | cons c cs =>
      rw [List.length_cons] at hl
      have hcs : cs.length ≤ n := by omega
      have hrest : (tagRest cs).length ≤ n :=
        Nat.le_trans (tagRest_length_le cs) hcs
      by_cases himg : isImgOpen (c :: cs) = true
      · obtain rfl : c = '<' := isImgOpen_head c cs himg
        have hdel3 : headDelim (cs.drop 3) = true := isImgOpen_delim '<' cs himg
        by_cases hm : hasInfix (tagContent cs) markerName = true
        · rw [rewrite_marked '<' cs himg hm]
          by_cases hcl : tagClosed cs = true
          · rw [if_pos hcl]
            have hstep := rewrite_emitted_tag (tagContent cs)
              (addLazyLoadingToImages (tagRest cs))
              (tagContent_not_gt cs)
              (content_headDelim cs _ hdel3 (headDelim_gt _)) hm
            simp only [List.cons_append]
            rw [hstep, ih (tagRest cs) hrest]
          · rw [if_neg hcl]
            obtain ⟨hA, hR⟩ := unclosed_tag cs (by simpa using hcl)
            rw [hR, rewrite_nil]
            have hstep := rewrite_emitted_unclosed (tagContent cs)
              (tagContent_not_gt cs) (by rw [hA]; exact hdel3) hm
            simp only [List.cons_append, List.append_nil]
            rw [hstep]
        · rw [rewrite_unmarked '<' cs himg (by simpa using hm)]
          have hugt : ∀ a ∈ srcOrEmpty (tagContent cs), (!(a = '>')) = true :=
            srcOrEmpty_not_gt cs
          have hlgt := lazyInner_not_gt (srcOrEmpty (tagContent cs)) hugt
          have hldel : headDelim (lazyInner (srcOrEmpty (tagContent cs)) ++
              '>' :: addLazyLoadingToImages (tagRest cs)) = true := by
            simp only [lazyInner, lazyPre, List.cons_append]
            rfl
          have hstep := rewrite_emitted_tag
            (lazyInner (srcOrEmpty (tagContent cs)))
            (addLazyLoadingToImages (tagRest cs)) hlgt hldel
            (hasInfix_lazyInner _)
          rw [mkLazyTag]
          simp only [List.cons_append, List.append_assoc,
            List.singleton_append, List.nil_append]
          rw [hstep, ih (tagRest cs) hrest]
      · have himg2 : isImgOpen (c :: cs) = false := by simpa using himg
        rw [rewrite_plain c cs himg2]
        have h2 : isImgOpen (c :: addLazyLoadingToImages cs) = false := by
          rw [addLazyLoadingToImages, isImgOpen_cons_rewrite]
          exact himg2
        rw [rewrite_plain c _ h2, ih cs hcs]

/-- Per-tag model of the rewriter: marker-carrying bodies are kept, all
others are replaced by the placeholder body embedding their source URL. -/
def rewriteTagModel (ct : List Char) : List Char :=
  if hasInfix ct markerName then ct else lazyInner (srcOrEmpty ct)

/-- Scanning the rewriter's output returns exactly the per-tag rewrite of
the input's image tags. -/
theorem scan_rewrite_commute (html : List Char) :
    imgContents (addLazyLoadingToImages html) =
      (imgContents html).map rewriteTagModel := by
  suffices h : ∀ (n : Nat) (l : List Char), l.length ≤ n →
      imgContents (addLazyLoadingToImages l) =
        (imgContents l).map rewriteTagModel from
    h html.length html (Nat.le_refl _)
  intro n
  induction n with
  | zero =>
    intro l hl
    rw [List.length_eq_zero.mp (Nat.le_zero.mp hl)]
    rfl
  | succ n ih =>
    intro l hl
    cases l with
    | nil => rfl
    | cons c cs =>
      rw [List.length_cons] at hl
      have hcs : cs.length ≤ n := by omega
      have hrest : (tagRest cs).length ≤ n :=
        Nat.le_trans (tagRest_length_le cs) hcs
      by_cases himg : isImgOpen (c :: cs) = true
      · obtain rfl : c = '<' := isImgOpen_head c cs himg
        have hdel3 : headDelim (cs.drop 3) = true := isImgOpen_delim '<' cs himg
        rw [scan_img '<' cs himg, List.map_cons]
        by_cases hm : hasInfix (tagContent cs) markerName = true
        · rw [rewrite_marked '<' cs himg hm]
          by_cases hcl : tagClosed cs = true
          · rw [if_pos hcl]
            have hstep := scan_emitted_tag (tagContent cs)
              (addLazyLoadingToImages (tagRest cs))
              (tagContent_not_gt cs)
              (content_headDelim cs _ hdel3 (headDelim_gt _))
            simp only [List.cons_append]
            rw [hstep, ih (tagRest cs) hrest, rewriteTagModel, if_pos hm]
          · rw [if_neg hcl]
            obtain ⟨hA, hR⟩ := unclosed_tag cs (by simpa using hcl)
            rw [hR, rewrite_nil]
            have hstep := scan_emitted_unclosed (tagContent cs)
              (tagContent_not_gt cs) (by rw [hA]; exact hdel3)
            simp only [List.cons_append, List.append_nil]
            rw [hstep, scan_nil, rewriteTagModel, if_pos hm]
            rfl
        · rw [rewrite_unmarked '<' cs himg (by simpa using hm)]
          have hugt : ∀ a ∈ srcOrEmpty (tagContent cs), (!(a = '>')) = true :=
            srcOrEmpty_not_gt cs
          have hlgt := lazyInner_not_gt (srcOrEmpty (tagContent cs)) hugt
          have hldel : headDelim (lazyInner (srcOrEmpty (tagContent cs)) ++
              '>' :: addLazyLoadingToImages (tagRest cs)) = true := by
            simp only [lazyInner, lazyPre, List.cons_append]
            rfl
          have hstep := scan_emitted_tag
            (lazyInner (srcOrEmpty (tagContent cs)))
            (addLazyLoadingToImages (tagRest cs)) hlgt hldel
          rw [mkLazyTag]
          simp only [List.cons_append, List.append_assoc,
            List.singleton_append, List.nil_append]
          rw [hstep, ih (tagRest cs) hrest, rewriteTagModel,
            if_neg (by simpa using hm)]
      · have himg2 : isImgOpen (c :: cs) = false := by simpa using himg
        rw [rewrite_plain c cs himg2]
        have h2 : isImgOpen (c :: addLazyLoadingToImages cs) = false := by
          rw [addLazyLoadingToImages, isImgOpen_cons_rewrite]
          exact himg2
        rw [scan_plain c _ h2, scan_plain c cs himg2, ih cs hcs]

/-- An attribute-name character is not skipped. -/
theorem attrNameChar_not_skip (a : Char) (h : attrNameChar a = true) :
    skipChar a = false := by
  rw [attrNameChar] at h
  rw [skipChar]
  simp only [Bool.not_eq_eq_eq_not, Bool.not_true, Bool.or_eq_false_iff] at h
  obtain ⟨⟨⟨⟨⟨h1, h2⟩, h3⟩, h4⟩, h5⟩, h6⟩ := h
  simp [h1, of_decide_eq_false h3, of_decide_eq_false h5,
    of_decide_eq_false h6]

/-- `takeWhile` of a satisfying prefix followed by a failing character. -/
theorem takeWhile_append_stop (p : Char → Bool) (A : List Char) (x : Char)
    (X : List Char) (hA : ∀ a ∈ A, p a = true) (hx : p x = false) :
    (A ++ x :: X).takeWhile p = A := by
  rw [takeWhile_append_all p A _ hA, List.takeWhile_cons, hx]
  simp

/-- Parsing a double-quoted value. -/
theorem parseVal_quoted (v rest : List Char)
    (hv : ∀ a ∈ v, quotedValChar a = true) :
    parseVal (dq :: (v ++ dq :: rest)) = (v, rest) := by
  rw [parseVal, if_pos (by simp)]
  have htw : (v ++ dq :: rest).takeWhile quotedValChar = v :=
    takeWhile_append_stop quotedValChar v dq rest hv (by decide)
  simp only [htw, List.drop_left]
  rfl

/-- The attribute scan skips a whitespace character. -/
theorem findAttr_skip_ws (f : Nat) (name cs : List Char) :
    findAttr (f + 1) name (' ' :: cs) = findAttr f name cs := by
  rw [findAttr, if_pos (by decide)]

/-- The attribute scan over a double-quoted attribute either returns its
value or moves past it. -/
theorem findAttr_quoted_attr (f : Nat) (name : List Char) (a0 : Char)
    (anm' v rest : List Char)
    (hchars : ∀ a ∈ (a0 :: anm'), attrNameChar a = true)
    (hv : ∀ a ∈ v, quotedValChar a = true) :
    findAttr (f + 1) name ((a0 :: anm') ++ '=' :: dq :: (v ++ dq :: rest)) =
      if (a0 :: anm') = name then some v else findAttr f name rest := by
  rw [List.cons_append, findAttr,
    if_neg (by simp [attrNameChar_not_skip a0 (hchars a0 (List.mem_cons_self _ _))])]
  have htw : (a0 :: (anm' ++ '=' :: dq :: (v ++ dq :: rest))).takeWhile
      attrNameChar = a0 :: anm' := by
    rw [← List.cons_append]
    exact takeWhile_append_stop attrNameChar (a0 :: anm') '=' _ hchars
      (by decide)
  rw [htw, ← List.cons_append, List.drop_left]
  show (if (a0 :: anm') = name then some (parseVal (dq :: (v ++ dq :: rest))).1
    else findAttr f name (parseVal (dq :: (v ++ dq :: rest))).2) = _
  rw [parseVal_quoted v rest hv]

/-- The rewritten tag body in fully explicit attribute form. -/
theorem lazyInner_structured (u : List Char) :
    lazyInner u = ' ' :: (('c' :: "lass".toList) ++ '=' :: dq ::
      ("lazy-image".toList ++ dq :: (' ' :: (('d' :: "ata-src".toList) ++
        '=' :: dq :: (u ++ dq :: (' ' :: (('s' :: "rc".toList) ++ '=' :: dq ::
          (placeholderSrc ++ dq :: [])))))))) := rfl

/-- The deferred-source attribute of a rewritten tag body is the embedded
URL. -/
theorem attr_marker_lazyInner (u : List Char)
    (hv : ∀ a ∈ u, quotedValChar a = true) :
    ∀ f : Nat, findAttr (f + 4) markerName (lazyInner u) = some u := by
  intro f
  rw [lazyInner_structured]
  rw [show f + 4 = (f + 3) + 1 from rfl, findAttr_skip_ws]
  rw [show f + 3 = (f + 2) + 1 from rfl,
    findAttr_quoted_attr (f + 2) markerName 'c' "lass".toList
      "lazy-image".toList _ (by decide) (by decide),
    if_neg (by decide)]
  rw [show f + 2 = (f + 1) + 1 from rfl, findAttr_skip_ws]
  rw [findAttr_quoted_attr f markerName 'd' "ata-src".toList u _
      (by decide) hv,
    if_pos (by decide)]

/-- The live source attribute of a rewritten tag body is the placeholder. -/
theorem attr_src_lazyInner (u : List Char)
    (hv : ∀ a ∈ u, quotedValChar a = true) :
    ∀ f : Nat, findAttr (f + 6) srcName (lazyInner u) = some placeholderSrc := by
  intro f
  rw [lazyInner_structured]
  rw [show f + 6 = (f + 5) + 1 from rfl, findAttr_skip_ws]
  rw [show f + 5 = (f + 4) + 1 from rfl,
    findAttr_quoted_attr (f + 4) srcName 'c' "lass".toList
      "lazy-image".toList _ (by decide) (by decide),
    if_neg (by decide)]
  rw [show f + 4 = (f + 3) + 1 from rfl, findAttr_skip_ws]
  rw [show f + 3 = (f + 2) + 1 from rfl,
    findAttr_quoted_attr (f + 2) srcName 'd' "ata-src".toList u _
      (by decide) hv,
    if_neg (by decide)]
  rw [show f + 2 = (f + 1) + 1 from rfl, findAttr_skip_ws]
  rw [findAttr_quoted_attr f srcName 's' "rc".toList placeholderSrc []
      (by decide) (by decide),
    if_pos (by decide)]

/-- Length of the rewritten tag body. -/
theorem lazyInner_length (u : List Char) :
    (lazyInner u).length = u.length + 80 := by
  have h1 : lazyPre.length = 20 := by decide
  have h2 : markerName.length = 8 := by decide
  have h3 : lazySuf.length = 49 := by decide
  simp [lazyInner, List.length_append, h1, h2, h3]
  omega

/-- Extracted source URLs are valid quoted-attribute values. -/
theorem srcOrEmpty_quotedVal (ct : List Char) :
    ∀ a ∈ srcOrEmpty ct, quotedValChar a = true := by
  intro a ha
  rw [srcOrEmpty] at ha
  cases hv : attrValOf srcName ct with
  | none => rw [hv] at ha; simp at ha
  | some v =>
    rw [hv] at ha
    simp only [Option.getD_some] at ha
    obtain ⟨h1, h2⟩ := findAttr_noQuote _ srcName ct v hv a ha
    rw [quotedValChar]
    simp [h1, h2]

/-- The deferred-source attribute of a rewritten tag holds the embedded
URL. -/
theorem attrValOf_marker_lazyInner (u : List Char)
    (hv : ∀ a ∈ u, quotedValChar a = true) :
    attrValOf markerName (lazyInner u) = some u := by
  rw [attrValOf, lazyInner_length]
  rw [show u.length + 80 + 1 = (u.length + 77) + 4 from by omega]
  exact attr_marker_lazyInner u hv (u.length + 77)

/-- The live source attribute of a rewritten tag is the placeholder. -/
theorem attrValOf_src_lazyInner (u : List Char)
    (hv : ∀ a ∈ u, quotedValChar a = true) :
    attrValOf srcName (lazyInner u) = some placeholderSrc := by
  rw [attrValOf, lazyInner_length]
  rw [show u.length + 80 + 1 = (u.length + 75) + 6 from by omega]
  exact attr_src_lazyInner u hv (u.length + 75)

/-- Decidable check of C3: the rewriter's output tags are exactly the
per-tag rewrites of the input tags, and for every input tag not already
carrying the marker, the rewritten tag holds the original URL in the
deferred-source attribute, the placeholder as its live source, and the
discovery marker. -/
def c3check (html : List Char) : Bool :=
  decide (imgContents (addLazyLoadingToImages html) =
    (imgContents html).map rewriteTagModel) &&
  (imgContents html).all (fun ct =>
    hasInfix ct markerName ||
      (decide (attrValOf markerName (lazyInner (srcOrEmpty ct)) =
          some (srcOrEmpty ct)) &&
       decide (attrValOf srcName (lazyInner (srcOrEmpty ct)) =
          some placeholderSrc) &&
       hasInfix (lazyInner (srcOrEmpty ct)) markerName))

set_option maxRecDepth 4000 in
/-- C3 (amended): for every HTML input, every image tag of the input that
does not already carry the deferred-source marker is replaced by a tagged
placeholder tag whose deferred-source attribute holds the original URL and
whose live source is the neutral placeholder; marker-carrying tags are kept
verbatim.  In the three-image scenario the output carries three tagged
placeholders, two with deferred source `a.jpg` and one with `b.jpg`, and
none with a live `src="a.jpg"` or `src="b.jpg"`. -/
theorem rewrite_tags_placeholder (html : List Char) :
    c3check html = true ∧
      imgContents (addLazyLoadingToImages scenarioHtml) =
        [lazyInner "a.jpg".toList, lazyInner "b.jpg".toList,
         lazyInner "a.jpg".toList] ∧
      (imgContents (addLazyLoadingToImages scenarioHtml)).map
          (fun ct => attrValOf markerName ct) =
        [some "a.jpg".toList, some "b.jpg".toList, some "a.jpg".toList] ∧
      (imgContents (addLazyLoadingToImages scenarioHtml)).all
          (fun ct => attrValOf srcName ct == some placeholderSrc) = true ∧
      (imgContents (addLazyLoadingToImages scenarioHtml)).all
          (fun ct => !(attrValOf srcName ct == some "a.jpg".toList) &&
            !(attrValOf srcName ct == some "b.jpg".toList)) = true := by
  refine ⟨?_, by decide, by decide, by decide, by decide⟩
  rw [c3check, Bool.and_eq_true]
  constructor
  · rw [decide_eq_true_eq]
    exact scan_rewrite_commute html
  · rw [List.all_eq_true]
    intro ct hct
    by_cases hm : hasInfix ct markerName = true
    · rw [hm, Bool.true_or]
    · have hv := srcOrEmpty_quotedVal ct
      rw [attrValOf_marker_lazyInner _ hv, attrValOf_src_lazyInner _ hv]
      simp [hasInfix_lazyInner]

/-- Counterexample to C3 as stated: an input image tag that already carries
the deferred-source marker is kept verbatim, so its live source — one of
the extracted original URLs — survives rewriting. -/
def cxHtml : List Char := "<img data-src=\"q\" src=\"a.jpg\">".toList

set_option maxRecDepth 4000 in
/-- The original universally quantified claim fails at `cxHtml`: the output
retains an image tag whose live source equals an extracted original URL. -/
theorem rewrite_live_src_counterexample :
    ¬(∀ ct ∈ imgContents (addLazyLoadingToImages cxHtml),
        ∀ r ∈ extractImagesFromHTML cxHtml,
          ¬(attrValOf srcName ct = some r.url)) := by
  decide
